import Mathlib

/-!
Formal model of the disk-based text retrieval engine (SPIMI build, block
merge, tf-idf / cosine query engine) from `src/core/text_preprocessor.py`,
`src/indexes/merge_blocks.py` and `src/indexes/query_engine.py`.

Modelling conventions:
* Python dicts are modelled as insertion-ordered association lists
  (`List (σ × β)`); `defaultdict` accumulation is `updAdd` / `updNest`.
* Python sets are modelled as duplicate-free lists built with `insertSet`
  (only membership and cardinality are ever used).
* `math.log(x, 10)` and `math.sqrt` are transcendental, so they are passed
  in as a parameter record `NumOps`; theorems either hold for every choice
  of these functions or instantiate them at rational values that agree
  with the real `log10` / `sqrt` at every point actually evaluated.
* Floating point arithmetic is modelled by exact rational arithmetic.
* `json.dumps` of a postings record is modelled by a concrete string
  encoder (`encodeRecordLine`); rendering of numeric weights uses `Rat`'s
  `toString` in place of Python float `repr` (no claim depends on the
  concrete digits, only on byte-offset bookkeeping being consistent).
* Byte-level file contents are UTF-8 byte lists (`strBytes`).
-/

namespace Spimi

/-! ## Generic list utilities -/

/-- Strict lexicographic order on character lists, comparing code points.
This is exactly how Python compares strings (`str.__lt__`). -/
def lexLt : List Char → List Char → Bool
  | [], [] => false
  | [], _ :: _ => true
  | _ :: _, [] => false
  | a :: as, b :: bs =>
    if a.toNat < b.toNat then true
    else if b.toNat < a.toNat then false
    else lexLt as bs

/-- Strict string order (Python `<` on `str`). -/
def strLt (s t : String) : Bool := lexLt s.data t.data

/-- Non-strict string order (Python `<=` on `str`), as the negation of the
reverse strict order (valid for a total order). -/
def strLe (s t : String) : Bool := !(strLt t s)

/-- Stable insertion of `x` into `l`: `x` is placed before the first
element `y` with `le x y`.  Together with `sortBy` this is a stable sort,
matching Python's stable `sorted`. -/
def insertLe (le : α → α → Bool) (x : α) : List α → List α
  | [] => [x]
  | y :: ys => if le x y then x :: y :: ys else y :: insertLe le x ys

/-- Stable insertion sort, modelling Python's `sorted` with key-based
comparator `le`. -/
def sortBy (le : α → α → Bool) : List α → List α
  | [] => []
  | x :: xs => insertLe le x (sortBy le xs)

/-- Keep the first occurrence of every element, dropping later duplicates
(elements already in `seen` are dropped). -/
def firstOccurAux [DecidableEq α] (seen : List α) : List α → List α
  | [] => []
  | x :: xs =>
    if x ∈ seen then firstOccurAux seen xs
    else x :: firstOccurAux (x :: seen) xs

/-- First-occurrence deduplication of a list. -/
def firstOccur [DecidableEq α] (l : List α) : List α := firstOccurAux [] l

/-- Lookup in an insertion-ordered association list (Python `dict.get`). -/
def lookupA [DecidableEq σ] (k : σ) : List (σ × β) → Option β
  | [] => none
  | (k', v) :: rest => if k' = k then some v else lookupA k rest

/-- Keys of an association list, in insertion order (Python `dict` keys). -/
def keysA (m : List (σ × β)) : List σ := m.map Prod.fst

/-- Additive update of an association list: `m[k] += v`, where a missing
key starts from zero (Python `defaultdict` / `dict.get(k, 0) + v`); a new
key is appended at the end, matching dict insertion order. -/
def updAdd [DecidableEq σ] [Add β] (m : List (σ × β)) (k : σ) (v : β) :
    List (σ × β) :=
  match m with
  | [] => [(k, v)]
  | (k', v') :: rest =>
    if k' = k then (k', v' + v) :: rest else (k', v') :: updAdd rest k v

/-- Fold `updAdd` over a list of key/value contributions. -/
def foldAdd [DecidableEq σ] [Add β] (m : List (σ × β))
    (ps : List (σ × β)) : List (σ × β) :=
  ps.foldl (fun m p => updAdd m p.1 p.2) m

/-- Set insertion on a duplicate-free list (Python `set.add`). -/
def insertSet [DecidableEq σ] (s : List σ) (x : σ) : List σ :=
  if x ∈ s then s else s ++ [x]

/-- Remove the first occurrence of `x` from a list. -/
def removeFirst [DecidableEq α] (x : α) : List α → List α
  | [] => []
  | y :: ys => if y = x then ys else y :: removeFirst x ys

/-! ## Text pipeline (`src/core/text_preprocessor.py`)

`unidecode` (accent stripping) is an external library with a huge
transliteration table; it is modelled as a parameter `uni : Char → List
Char` (one input character may transliterate to several output
characters).  The real `unidecode` produces only ASCII output and is the
identity on ASCII, which is the only property any theorem needs. -/

/-- Python whitespace class for the regex `\s` (ASCII range; the engine
only ever produces the plain space `' '` after collapsing). -/
def isSpaceChar (c : Char) : Bool :=
  c = ' ' || c = '\t' || c = '\n' || c = '\r' || c.toNat = 11 || c.toNat = 12

/-- Characters kept by `re.sub(r"[^a-z0-9\s]", " ", text)`: lowercase
ASCII letters and digits (whitespace is handled by `isSpaceChar`). -/
def isKeptChar (c : Char) : Bool :=
  (97 ≤ c.toNat && c.toNat ≤ 122) || (48 ≤ c.toNat && c.toNat ≤ 57)

/-- ASCII-range model of `str.lower` (faithful on `unidecode` output,
which is ASCII). -/
def lowerChar (c : Char) : Char :=
  if 65 ≤ c.toNat ∧ c.toNat ≤ 90 then Char.ofNat (c.toNat + 32) else c

/-- One character of `re.sub(r"[^a-z0-9\s]", " ", text)`: characters
outside `[a-z0-9\s]` are replaced by a space. -/
def subChar (c : Char) : Char :=
  if isKeptChar c || isSpaceChar c then c else ' '

/-- `re.sub(r"\s+", " ", text)`: every maximal whitespace run is replaced
by a single space.  `prevSpace` records whether the previous character
was part of a whitespace run already emitted. -/
def collapseWs (prevSpace : Bool) : List Char → List Char
  | [] => []
  | c :: rest =>
    if isSpaceChar c then
      if prevSpace then collapseWs true rest
      else ' ' :: collapseWs true rest
    else c :: collapseWs false rest

/-- `str.strip()`: drop leading and trailing whitespace. -/
def stripSpaces (l : List Char) : List Char :=
  (((l.dropWhile isSpaceChar).reverse.dropWhile isSpaceChar)).reverse

/-- `normalize_text`: transliterate (`unidecode`), lowercase, replace
characters outside `[a-z0-9\s]` by spaces, collapse whitespace runs,
strip the ends.  `None` input (mapped to `""` by the code) is out of
scope of the `String` model. -/
def normalize_text (uni : Char → List Char) (s : String) : String :=
  String.mk (stripSpaces (collapseWs false
    (((s.data.flatMap uni).map lowerChar).map subChar)))

/-! ### Stopword initialization (`_ensure_nltk_resources`)

The function's effects depend on the process environment (files on disk,
importability of `nltk`, downloadable resources).  `StopwordEnv` captures
every outcome the Python code distinguishes; `Except.error` models an
exception escaping `_ensure_nltk_resources` (a fatal initialization
failure), `Except.ok` models normal return with the resulting stopword
set. -/

/-- Outcome of `nltk.corpus.stopwords.words("spanish")`: success, a
`LookupError` (resource not downloaded), or any other exception. -/
inductive LoadOutcome (α : Type) where
  | ok (v : α)
  | lookupFailed
  | otherFailed

/-- Process environment for `_ensure_nltk_resources`. -/
structure StopwordEnv where
  /-- `os.path.exists(custom_path)` for `stopwords_es.txt`. -/
  customExists : Bool
  /-- Raw lines of the custom file; `none` models an exception while
  reading it (the code then falls through to the NLTK path). -/
  customRead : Option (List String)
  /-- Whether `import nltk` succeeded (`nltk is not None`). -/
  nltkAvailable : Bool
  /-- Whether `SnowballStemmer("spanish")` constructs without raising
  (the code retries once; the retry raises identically, so failure is
  fatal). -/
  stemmerOk : Bool
  /-- First call of `stopwords.words("spanish")`. -/
  swFirst : LoadOutcome (List String)
  /-- Retry of `stopwords.words("spanish")` after `nltk.download`; `none`
  models the retry raising (which propagates, fatally). -/
  swRetry : Option (List String)
  /-- The `unidecode` transliteration used to normalize stopwords. -/
  uni : Char → List Char

/-- `unidecode(w).lower()` applied to a stopword. -/
def normStopword (env : StopwordEnv) (w : String) : String :=
  String.mk ((w.data.flatMap env.uni).map lowerChar)

/-- Line filtering for the custom stopword file: strip each line, drop
blank lines and `#` comments, then normalize.  (The Python code then
deduplicates via `set(words)`; dedup is immaterial to membership tests,
so the list is kept as is.) -/
def processCustom (env : StopwordEnv) (raw : List String) : List String :=
  ((raw.map (fun w => String.mk (stripSpaces w.data))).filter
    (fun w => w ≠ "" && w.data.head? ≠ some '#')).map (normStopword env)

/-- The NLTK branch of `_ensure_nltk_resources` (reached when no custom
stopword list is usable): require `nltk`, construct the stemmer, then
load the Spanish stopwords, downloading on `LookupError` and falling
back to the EMPTY set on any other exception. -/
def nltkLoad (env : StopwordEnv) : Except String (List String) :=
  if env.nltkAvailable = false then
    .error "nltk not available. Install with pip install nltk and run once to download resources."
  else if env.stemmerOk = false then
    .error "SnowballStemmer construction failed"
  else
    match env.swFirst with
    | .ok sw => .ok (sw.map (normStopword env))
    | .lookupFailed =>
      match env.swRetry with
      | some sw => .ok (sw.map (normStopword env))
      | none => .error "stopwords resource lookup failed after download"
    | .otherFailed => .ok []

/-- `_ensure_nltk_resources` on its first call in a process (`_stopwords`
and `_stemmer` both still `None`): prefer the custom stopword file, fall
through to the NLTK path if it is absent or unreadable. -/
def ensure_nltk_resources (env : StopwordEnv) : Except String (List String) :=
  if env.customExists then
    match env.customRead with
    | some raw => .ok (processCustom env raw)
    | none => nltkLoad env
  else nltkLoad env

/-- `remove_stopwords`: initialize the stopword set, then filter.  An
exception from the initializer propagates to the caller. -/
def remove_stopwords (env : StopwordEnv) (tokens : List String) :
    Except String (List String) :=
  (ensure_nltk_resources env).map
    (fun sw => tokens.filter (fun t => !(sw.contains t)))

/-! ## Block merger (`src/indexes/merge_blocks.py`) -/

/-- `math.log(x, 10)` and `math.sqrt` passed in as parameters (they are
transcendental and cannot be computed exactly on rationals). -/
structure NumOps where
  log10 : ℚ → ℚ
  sqrt : ℚ → ℚ

/-- A parsed block file: a JSON object mapping each term to its list of
`[doc_id, tf]` pairs, in file order. -/
abbrev Block := List (String × List (String × Nat))

/-- Block file name written by the SPIMI builder
(`"block_" + str(block_id) + ".json"`). -/
def blockFileName (i : Nat) : String :=
  "block_" ++ toString i ++ ".json"

/-- `sorted(glob.glob(os.path.join(blocks_dir, "block_*.json")))`: the
block files sorted by FILE NAME, i.e. lexicographically as strings (not
numerically by block id). -/
def sortedBlockFiles (files : List (Nat × Block)) : List (Nat × Block) :=
  sortBy (fun a b => strLe (blockFileName a.1) (blockFileName b.1)) files

/-- The flattened stream of `(term, doc_id, tf)` contributions, in the
exact order the merge loop visits them: block files in sorted-name
order, then file order of terms, then list order of postings. -/
def blockTriples (files : List (Nat × Block)) : List (String × String × Nat) :=
  (sortedBlockFiles files).flatMap
    (fun f => f.2.flatMap (fun tp => tp.2.map (fun p => (tp.1, p.1, p.2))))

/-- `term_doc_tf[term][str(doc_id)] += int(tf)` on the nested
`defaultdict(lambda: defaultdict(int))`. -/
def updNest (m : List (String × List (String × Nat))) (t d : String)
    (tf : Nat) : List (String × List (String × Nat)) :=
  match m with
  | [] => [(t, updAdd [] d tf)]
  | (t', inner) :: rest =>
    if t' = t then (t', updAdd inner d tf) :: rest
    else (t', inner) :: updNest rest t d tf

/-- Aggregation loop of `merge_blocks`: fold every contribution into the
nested term → doc → cumulative-tf map. -/
def aggregate (triples : List (String × String × Nat)) :
    List (String × List (String × Nat)) :=
  triples.foldl (fun m x => updNest m x.1 x.2.1 x.2.2) []

/-- `doc_ids.add(str(doc_id))` folded over every contribution. -/
def allDocIds (triples : List (String × String × Nat)) : List String :=
  triples.foldl (fun s x => insertSet s x.2.1) []

/-- `idf = math.log((N / df), 10) if df > 0 else 0.0`. -/
def idfOf (ops : NumOps) (N df : Nat) : ℚ :=
  if 0 < df then ops.log10 ((N : ℚ) / (df : ℚ)) else 0

/-- `tf_weight = 1.0 + math.log(tf, 10) if tf > 0 else 0.0`. -/
def tfWeight (ops : NumOps) (tf : Nat) : ℚ :=
  if 0 < tf then 1 + ops.log10 ((tf : ℚ)) else 0

/-- One output record of the postings store:
`\x7b"term": ..., "df": ..., "postings": [[doc_id, weight], ...]\x7d`. -/
structure PostingsRecord where
  term : String
  df : Nat
  postings : List (String × ℚ)
deriving DecidableEq

/-- The record written for one term: `df = len(docs)` and one posting
`[doc_id, tf_weight * idf]` per document, in the doc map's insertion
order. -/
def recordFor (ops : NumOps) (N : Nat) (t : String)
    (docs : List (String × Nat)) : PostingsRecord :=
  { term := t
    df := docs.length
    postings := docs.map (fun p =>
      (p.1, tfWeight ops p.2 * idfOf ops N docs.length)) }

/-- All records of the final postings store, one per term, in ascending
lexicographic term order (`for term in sorted(term_doc_tf.keys())`). -/
def mergeRecords (ops : NumOps) (files : List (Nat × Block)) :
    List PostingsRecord :=
  let agg := aggregate (blockTriples files)
  let N := (allDocIds (blockTriples files)).length
  (sortBy strLe (keysA agg)).map
    (fun t => recordFor ops N t ((lookupA t agg).getD []))

/-! ### Byte-level serialization of the postings store -/

/-- JSON string escaping for `"` and `\` (the characters `json.dumps`
must escape in the strings this system produces). -/
def jsonEscapeChar (c : Char) : List Char :=
  if c = '"' then ['\\', '"']
  else if c = '\\' then ['\\', '\\']
  else [c]

/-- A JSON string literal. -/
def jsonString (s : String) : String :=
  "\"" ++ String.mk (s.data.flatMap jsonEscapeChar) ++ "\""

/-- Rendering of a numeric weight.  Python renders a float via `repr`;
the model renders the exact rational via `toString`.  No claim depends on
the digits, only on every run rendering the same value identically. -/
def showWeight (q : ℚ) : String := toString q

/-- One `[doc_id, weight]` pair as JSON. -/
def encodePosting (p : String × ℚ) : String :=
  "[" ++ jsonString p.1 ++ ", " ++ showWeight p.2 ++ "]"

/-- `json.dumps(record, ensure_ascii=False) + "\n"` for one term record,
with Python's default separators. -/
def encodeRecordLine (r : PostingsRecord) : String :=
  "\x7b\"term\": " ++ jsonString r.term ++ ", \"df\": " ++ toString r.df
    ++ ", \"postings\": ["
    ++ String.intercalate ", " (r.postings.map encodePosting)
    ++ "]\x7d\n"

/-- UTF-8 encoding of one character, as natural-number byte values. -/
def charBytes (c : Char) : List Nat :=
  let n := c.toNat
  if n < 128 then [n]
  else if n < 2048 then [192 + n / 64, 128 + n % 64]
  else if n < 65536 then
    [224 + n / 4096, 128 + (n / 64) % 64, 128 + n % 64]
  else
    [240 + n / 262144, 128 + (n / 4096) % 64, 128 + (n / 64) % 64,
      128 + n % 64]

/-- UTF-8 encoding of a string (`line.encode("utf-8")`). -/
def strBytes (s : String) : List Nat := s.data.flatMap charBytes

/-- The bytes of one serialized record line. -/
def lineBytes (r : PostingsRecord) : List Nat := strBytes (encodeRecordLine r)

/-- Dictionary entry: `vocab[term] = \x7b"df": df, "offset": offset,
"length": length\x7d`. -/
structure VocabEntry where
  df : Nat
  offset : Nat
  length : Nat
deriving DecidableEq

/-- The write loop of `merge_blocks`: emit each record line in term
order, capturing `offset = invf.tell()` before the write and `length =
len(line.encode("utf-8"))` after it.  Returns the concatenated store
bytes and the vocabulary. -/
def writeRecords : List PostingsRecord → Nat → List Nat × List (String × VocabEntry)
  | [], _ => ([], [])
  | r :: rs, off =>
    let bs := lineBytes r
    let rest := writeRecords rs (off + bs.length)
    (bs ++ rest.1, (r.term, ⟨r.df, off, bs.length⟩) :: rest.2)

/-- `doc_sq_sums[doc_id] += weight * weight`, accumulated in the order
the write loop visits postings. -/
def docSqSums (ops : NumOps) (files : List (Nat × Block)) :
    List (String × ℚ) :=
  foldAdd [] ((mergeRecords ops files).flatMap
    (fun r => r.postings.map (fun p => (p.1, p.2 * p.2))))

/-- `doc_norms`: `math.sqrt(sq)` for each accumulated squared sum. -/
def docNormsOf (ops : NumOps) (files : List (Nat × Block)) :
    List (String × ℚ) :=
  (docSqSums ops files).map (fun p => (p.1, ops.sqrt p.2))

/-- The artifacts of a successful merge. -/
structure MergeOut where
  records : List PostingsRecord
  store : List Nat
  vocab : List (String × VocabEntry)
  doc_norms : List (String × ℚ)
  N : Nat
deriving DecidableEq

/-- The merge output as a total function (only meaningful when the
success guards of `merge_blocks` pass). -/
def mergeOutF (ops : NumOps) (files : List (Nat × Block)) : MergeOut :=
  let recs := mergeRecords ops files
  let sv := writeRecords recs 0
  { records := recs
    store := sv.1
    vocab := sv.2
    doc_norms := docNormsOf ops files
    N := (allDocIds (blockTriples files)).length }

/-- `merge_blocks`: fail if there are no block files, aggregate, fail if
no documents were found, otherwise produce the postings store, the
vocabulary and the document norm table. -/
def merge_blocks (ops : NumOps) (files : List (Nat × Block)) :
    Except String MergeOut :=
  if files.isEmpty then .error "No block files found"
  else if (allDocIds (blockTriples files)).length = 0 then
    .error "No documents found while merging blocks"
  else .ok (mergeOutF ops files)

/-! ## Query engine (`src/indexes/query_engine.py`)

The engine is modelled as a function of the loaded vocabulary, the loaded
document norm table, the raw bytes of the postings store, and a `decode`
function modelling `json.loads(...).get("postings", [])` on a byte slice
(`none` models a parse exception, handled by returning an empty postings
list).  The `preprocess` tokenization happens upstream; the engine logic
is a function of the resulting token list. -/

/-- `f.seek(offset); f.read(length)` on the store bytes. -/
def sliceBytes (store : List Nat) (off len : Nat) : List Nat :=
  (store.drop off).take len

/-- `QueryEngine._read_postings`: look the term up in the vocabulary,
read `length` bytes at `offset`, parse; a parse failure yields an empty
postings list but still reports `length` bytes read. -/
def read_postings (vocab : List (String × VocabEntry)) (store : List Nat)
    (decode : List Nat → Option (List (String × ℚ))) (t : String) :
    List (String × ℚ) × Nat :=
  match lookupA t vocab with
  | none => ([], 0)
  | some meta =>
    match decode (sliceBytes store meta.offset meta.length) with
    | none => ([], meta.length)
    | some ps => (ps, meta.length)

/-- Query term frequencies: `q_tf[t] = q_tf.get(t, 0) + 1` over the
token list. -/
def qTermFreqs (tokens : List String) : List (String × Nat) :=
  foldAdd [] (tokens.map (fun t => (t, 1)))

/-- Accumulator state of the main query loop: the per-document dot
products, the query squared-norm sum, and the bytes read so far. -/
structure AccumState where
  accum : List (String × ℚ)
  qSqSum : ℚ
  bytes : Nat

/-- The query-side idf: `math.log((len(self.doc_norms) / df), 10) if df >
0 else 0.0`. -/
def queryIdf (ops : NumOps) (norms : List (String × ℚ)) (df : Nat) : ℚ :=
  if 0 < df then ops.log10 ((norms.length : ℚ) / (df : ℚ)) else 0

/-- One iteration of the query loop for a `(term, tf)` pair: skip
out-of-vocabulary terms; otherwise compute the query weight, read the
postings, count the bytes and accumulate dot products. -/
def accumStep (ops : NumOps) (vocab : List (String × VocabEntry))
    (norms : List (String × ℚ)) (store : List Nat)
    (decode : List Nat → Option (List (String × ℚ)))
    (st : AccumState) (p : String × Nat) : AccumState :=
  match lookupA p.1 vocab with
  | none => st
  | some meta =>
    let qw := tfWeight ops p.2 * queryIdf ops norms meta.df
    let rp := read_postings vocab store decode p.1
    { accum := foldAdd st.accum (rp.1.map (fun q => (q.1, qw * q.2)))
      qSqSum := st.qSqSum + qw * qw
      bytes := st.bytes + rp.2 }

/-- The full accumulation pass of a query over its term frequencies. -/
def queryAccum (ops : NumOps) (vocab : List (String × VocabEntry))
    (norms : List (String × ℚ)) (store : List Nat)
    (decode : List Nat → Option (List (String × ℚ)))
    (tokens : List String) : AccumState :=
  (qTermFreqs tokens).foldl (accumStep ops vocab norms store decode)
    ⟨[], 0, 0⟩

/-- The minimum element of the heap list under Python tuple comparison
on `(score, doc_id)` (this is what `heap[0]` exposes). -/
def tupLt (a b : ℚ × String) : Bool :=
  a.1 < b.1 || (a.1 = b.1 && strLt a.2 b.2)

/-- Minimum of a heap under `tupLt` (`heap[0]` of a Python `heapq`). -/
def heapMin : List (ℚ × String) → Option (ℚ × String)
  | [] => none
  | x :: xs =>
    match heapMin xs with
    | none => some x
    | some m => some (if tupLt m x then m else x)

/-- The bounded top-k selection step: push while the heap is under
capacity; once full, replace the minimum only when the new SCORE strictly
exceeds the minimum's score (`if score > heap[0][0]`).  At `k = 0` with a
nonempty candidate set the Python code would raise an `IndexError` on
`heap[0]`; the model leaves the heap unchanged there (no claim touches
`k = 0`). -/
def heapPush (k : Nat) (heap : List (ℚ × String)) (x : ℚ × String) :
    List (ℚ × String) :=
  if heap.length < k then heap ++ [x]
  else
    match heapMin heap with
    | none => heap
    | some m => if m.1 < x.1 then removeFirst m heap ++ [x] else heap

/-- The scoring loop over accumulated dot products: documents with a
stored norm of exactly zero (or absent from the norm table, `get(doc_id,
0.0)`) are skipped; otherwise `score = dot / (q_norm * doc_norm)` enters
the bounded top-k selection. -/
def scoreFold (k : Nat) (norms : List (String × ℚ)) (qn : ℚ)
    (heap : List (ℚ × String)) (accum : List (String × ℚ)) :
    List (ℚ × String) :=
  accum.foldl (fun h p =>
    let nrm := (lookupA p.1 norms).getD 0
    if nrm = 0 then h
    else heapPush k h (p.2 / (qn * nrm), p.1)) heap

/-- `sorted(..., key=lambda x: x[1], reverse=True)`: stable sort of
`(doc_id, score)` pairs by descending score. -/
def sortResults (l : List (String × ℚ)) : List (String × ℚ) :=
  sortBy (fun a b => decide (b.2 ≤ a.2)) l

/-- Result of `QueryEngine.query` (elapsed wall-clock time is real time
and is not modelled). -/
structure QueryOut where
  results : List (String × ℚ)
  bytesRead : Nat
deriving DecidableEq

/-- `QueryEngine.query(qtext, k)` after tokenization: empty token lists
return immediately; otherwise accumulate dot products and bytes over the
query terms, compute the query norm (`1.0` when the squared sum is zero),
run the bounded top-k selection, and emit the heap contents sorted by
descending score (the code sorts twice; both sorts are identical). -/
def query (ops : NumOps) (vocab : List (String × VocabEntry))
    (norms : List (String × ℚ)) (store : List Nat)
    (decode : List Nat → Option (List (String × ℚ)))
    (tokens : List String) (k : Nat) : QueryOut :=
  if tokens.isEmpty then { results := [], bytesRead := 0 }
  else
    let st := queryAccum ops vocab norms store decode tokens
    let qn := if 0 < st.qSqSum then ops.sqrt st.qSqSum else 1
    let heap := scoreFold k norms qn [] st.accum
    { results := sortResults (sortResults
        (heap.map (fun p => (p.2, p.1))))
      bytesRead := st.bytes }

/-- The `(doc_id, tf)` contributions of one term, in visit order
(selection of the triple stream; used to relate the aggregation map to
the raw stream). -/
def selTriples (t : String) (triples : List (String × String × Nat)) :
    List (String × Nat) :=
  (triples.filter (fun x => decide (x.1 = t))).map (fun x => (x.2.1, x.2.2))

/-! ## Claim-side specification functions -/

/-- The doc-id occurrence stream of a term over the blocks in the order
the merge actually enumerates them (lexicographic file-name order). -/
def docOccurrences (files : List (Nat × Block)) (t : String) : List String :=
  ((blockTriples files).filter (fun x => decide (x.1 = t))).map
    (fun x => x.2.1)

/-- Block contributions enumerated in ascending NUMERIC block-id order
(what claim C3 asserts the merge does). -/
def numericBlockTriples (files : List (Nat × Block)) :
    List (String × String × Nat) :=
  (sortBy (fun a b => decide (a.1 ≤ b.1)) files).flatMap
    (fun f => f.2.flatMap (fun tp => tp.2.map (fun p => (tp.1, p.1, p.2))))

/-- The doc-id occurrence stream of a term in numeric block-id order. -/
def numericDocOccurrences (files : List (Nat × Block)) (t : String) :
    List String :=
  ((numericBlockTriples files).filter (fun x => decide (x.1 = t))).map
    (fun x => x.2.1)

/-- The cumulative term frequency of `(t, d)` summed over all blocks. -/
def cumTf (files : List (Nat × Block)) (t d : String) : Nat :=
  (((blockTriples files).filter
    (fun x => decide (x.1 = t) && decide (x.2.1 = d))).map
      (fun x => x.2.2)).sum

/-- Candidate documents of a query: the documents accumulated in the dot
product map whose stored norm is nonzero (these are exactly the
documents the scoring loop does not skip). -/
def candidatesNonzeroNorm (ops : NumOps)
    (vocab : List (String × VocabEntry)) (norms : List (String × ℚ))
    (store : List Nat) (decode : List Nat → Option (List (String × ℚ)))
    (tokens : List String) : List String :=
  (((queryAccum ops vocab norms store decode tokens).accum).filter
    (fun p => decide ((lookupA p.1 norms).getD 0 ≠ 0))).map Prod.fst

/-- The number of candidate documents with a defined (norm ≠ 0) and
NONZERO cosine score — the quantity claim C2 says bounds the result
list. -/
def nonzeroScoreCount (ops : NumOps)
    (vocab : List (String × VocabEntry)) (norms : List (String × ℚ))
    (store : List Nat) (decode : List Nat → Option (List (String × ℚ)))
    (tokens : List String) : Nat :=
  let st := queryAccum ops vocab norms store decode tokens
  let qn := if 0 < st.qSqSum then ops.sqrt st.qSqSum else 1
  (st.accum.filter (fun p =>
    decide ((lookupA p.1 norms).getD 0 ≠ 0) &&
    decide (p.2 / (qn * (lookupA p.1 norms).getD 0) ≠ 0))).length

/-- The exact sum of the dictionary `length` fields over the distinct
in-vocabulary query terms (out-of-vocabulary terms contribute zero). -/
def specBytesRead (vocab : List (String × VocabEntry))
    (tokens : List String) : Nat :=
  ((firstOccur tokens).map (fun t =>
    match lookupA t vocab with
    | some m => m.length
    | none => 0)).sum

/-! ## Concrete instances used by counterexamples and witnesses -/

/-- Concrete numeric operations for the worked examples: they agree with
the real `log10` and `sqrt` at every point those examples evaluate
(`log10 1 = 0`, `log10 2 > 0`, `sqrt 0 = 0`, `sqrt (q^2) = q`), and
return a recognizable junk value elsewhere to make any accidental
dependence visible. -/
def mOps : NumOps :=
  { log10 := fun q => if q = 1 then 0 else if q = 2 then 3/10 else 37
    sqrt := fun q => if q = 0 then 0 else if q = 9/100 then 3/10 else 37 }

/-- A `json.loads` model that decodes exactly the record lines a given
merge produced (the real parser decodes any well-formed line; only these
lines are ever handed to it by the engine). -/
def decodeOf (out : MergeOut) : List Nat → Option (List (String × ℚ)) :=
  fun bs => (out.records.find? (fun r => decide (lineBytes r = bs))).map
    PostingsRecord.postings

/-- A `json.loads` model in which every parse fails (used to exercise
the parse-failure path of `_read_postings`). -/
def decodeFail : List Nat → Option (List (String × ℚ)) := fun _ => none

/-- Single-block corpus: document "1" contains terms "a" and "b",
document "2" contains only "a".  Term "a" has df = N = 2, hence idf 0 and
all-zero stored weights; document "2"'s norm is therefore 0 while
document "1"'s is positive. -/
def exFilesA : List (Nat × Block) :=
  [(0, [("a", [("1", 1), ("2", 1)]), ("b", [("1", 1)])])]

/-- The merge output for `exFilesA` under `mOps`. -/
def exOutA : MergeOut := mergeOutF mOps exFilesA

/-- Eleven block files with ids 0..10; term "t" occurs with document
"d2" in block 2 and with document "d10" in block 10.  Lexicographic file
name order visits `block_10.json` before `block_2.json`. -/
def exBlockC3 (i : Nat) : Block :=
  if i = 2 then [("t", [("d2", 1)])]
  else if i = 10 then [("t", [("d10", 1)])]
  else []

/-- The eleven block files of the C3 counterexample. -/
def exFilesC3 : List (Nat × Block) :=
  (List.range 11).map (fun i => (i, exBlockC3 i))

/-- The merge output for `exFilesC3` under `mOps`. -/
def exOutC3 : MergeOut := mergeOutF mOps exFilesC3

/-- A process environment in which the custom stopword file is absent
and `stopwords.words("spanish")` raises a non-`LookupError` exception:
neither stopword source can be loaded. -/
def envC1 : StopwordEnv :=
  { customExists := false
    customRead := none
    nltkAvailable := true
    stemmerOk := true
    swFirst := .otherFailed
    swRetry := none
    uni := fun c => [c] }

/-- The identity transliteration, used to instantiate `uni` in
witnesses (the real `unidecode` is the identity on ASCII). -/
def idUni : Char → List Char := fun c => [c]

/-- A process environment without the custom stopword file and without a
working `nltk` import. -/
def envNoNltk : StopwordEnv :=
  { customExists := false
    customRead := none
    nltkAvailable := false
    stemmerOk := true
    swFirst := .otherFailed
    swRetry := none
    uni := fun c => [c] }

/-! ## Lemmas: the lexicographic order -/

theorem lexLt_cons (x y : Char) (xs ys : List Char) :
    lexLt (x :: xs) (y :: ys) = true ↔
      x.toNat < y.toNat ∨ (x.toNat = y.toNat ∧ lexLt xs ys = true) := by
  simp only [lexLt]
  split_ifs with h1 h2
  · simp [h1]
  · simp only [Bool.false_eq_true, false_iff]
    rintro (h | ⟨h, _⟩) <;> omega
  · have hxy : x.toNat = y.toNat := by omega
    simp [hxy]

theorem lexLt_irrefl (l : List Char) : lexLt l l = false := by
  induction l with
  | nil => rfl
  | cons x xs ih => simp [lexLt, ih]

theorem lexLt_trans :
    ∀ (a b c : List Char), lexLt a b = true → lexLt b c = true →
      lexLt a c = true := by
  intro a
  induction a with
  | nil =>
    intro b c hab hbc
    cases b with
    | nil => simp [lexLt] at hab
    | cons y ys =>
      cases c with
      | nil => simp [lexLt] at hbc
      | cons z zs => simp [lexLt]
  | cons x xs ih =>
    intro b c hab hbc
    cases b with
    | nil => simp [lexLt] at hab
    | cons y ys =>
      cases c with
      | nil => simp [lexLt] at hbc
      | cons z zs =>
        rw [lexLt_cons] at hab hbc ⊢
        rcases hab with h1 | ⟨h1, h1'⟩ <;> rcases hbc with h2 | ⟨h2, h2'⟩
        · exact Or.inl (by omega)
        · exact Or.inl (by omega)
        · exact Or.inl (by omega)
        · exact Or.inr ⟨by omega, ih ys zs h1' h2'⟩

theorem lexLt_eq_of_not :
    ∀ (a b : List Char), lexLt a b = false → lexLt b a = false → a = b := by
  intro a
  induction a with
  | nil =>
    intro b hab _
    cases b with
    | nil => rfl
    | cons y ys => simp [lexLt] at hab
  | cons x xs ih =>
    intro b hab hba
    cases b with
    | nil => simp [lexLt] at hba
    | cons y ys =>
      have hab' := (Bool.eq_false_iff.mp hab)
      have hba' := (Bool.eq_false_iff.mp hba)
      rw [Ne, lexLt_cons] at hab' hba'
      push_neg at hab' hba'
      have hxy : x.toNat = y.toNat := by omega
      have hx : x = y := Char.eq_of_val_eq (UInt32.ext hxy)
      have hxs : xs = ys := by
        refine ih ys ?_ ?_
        · exact Bool.eq_false_iff.mpr (hab'.2 hxy)
        · exact Bool.eq_false_iff.mpr (hba'.2 hxy.symm)
      rw [hx, hxs]

theorem strLe_trans (a b c : String) (hab : strLe a b = true)
    (hbc : strLe b c = true) : strLe a c = true := by
  simp only [strLe, strLt, Bool.not_eq_true'] at *
  cases hac : lexLt c.data a.data with
  | false => rfl
  | true =>
    exfalso
    cases hab2 : lexLt a.data b.data with
    | true =>
      have h := lexLt_trans _ _ _ hac hab2
      exact Bool.noConfusion (h.symm.trans hbc)
    | false =>
      have heq : a.data = b.data := lexLt_eq_of_not _ _ hab2 hab
      rw [heq] at hac
      exact Bool.noConfusion (hac.symm.trans hbc)

theorem strLe_total (a b : String) :
    strLe a b = true ∨ strLe b a = true := by
  simp only [strLe, strLt, Bool.not_eq_true']
  cases h : lexLt b.data a.data with
  | false => exact Or.inl rfl
  | true =>
    cases h2 : lexLt a.data b.data with
    | false => exact Or.inr rfl
    | true =>
      have := lexLt_trans _ _ _ h h2
      rw [lexLt_irrefl] at this
      exact absurd this (by simp)

theorem strLt_of_strLe_of_ne (a b : String) (h : strLe a b = true)
    (hne : a ≠ b) : strLt a b = true := by
  simp only [strLe, strLt, Bool.not_eq_true'] at *
  cases h2 : lexLt a.data b.data
  · exact absurd (String.ext (lexLt_eq_of_not _ _ h2 h)) hne
  · rfl

/-! ## Lemmas: stable insertion sort -/

theorem perm_insertLe (le : α → α → Bool) (x : α) (l : List α) :
    (insertLe le x l).Perm (x :: l) := by
  induction l with
  | nil => simp [insertLe]
  | cons y ys ih =>
    simp only [insertLe]
    split
    · exact List.Perm.refl _
    · exact (List.Perm.cons y ih).trans (List.Perm.swap x y ys)

theorem perm_sortBy (le : α → α → Bool) (l : List α) :
    (sortBy le l).Perm l := by
  induction l with
  | nil => simp [sortBy]
  | cons x xs ih =>
    exact (perm_insertLe le x (sortBy le xs)).trans (List.Perm.cons x ih)

theorem mem_insertLe (le : α → α → Bool) (x a : α) (l : List α) :
    a ∈ insertLe le x l ↔ a = x ∨ a ∈ l := by
  rw [(perm_insertLe le x l).mem_iff]
  simp

theorem pairwise_insertLe (le : α → α → Bool)
    (htrans : ∀ a b c, le a b = true → le b c = true → le a c = true)
    (htotal : ∀ a b, le a b = true ∨ le b a = true) (x : α) :
    ∀ l, List.Pairwise (fun a b => le a b = true) l →
      List.Pairwise (fun a b => le a b = true) (insertLe le x l) := by
  intro l
  induction l with
  | nil =>
    intro _
    simp [insertLe]
  | cons y ys ih =>
    intro hl
    rcases List.pairwise_cons.mp hl with ⟨hy, hys⟩
    simp only [insertLe]
    split
    · rename_i hxy
      refine List.Pairwise.cons ?_ hl
      intro b hb
      rcases List.mem_cons.mp hb with rfl | hb
      · exact hxy
      · exact htrans _ _ _ hxy (hy b hb)
    · rename_i hxy
      have hyx : le y x = true := by
        rcases htotal x y with h | h
        · exact absurd h hxy
        · exact h
      refine List.Pairwise.cons ?_ (ih hys)
      intro b hb
      rcases (mem_insertLe le x b ys).mp hb with rfl | hb
      · exact hyx
      · exact hy b hb

theorem pairwise_sortBy (le : α → α → Bool)
    (htrans : ∀ a b c, le a b = true → le b c = true → le a c = true)
    (htotal : ∀ a b, le a b = true ∨ le b a = true) (l : List α) :
    List.Pairwise (fun a b => le a b = true) (sortBy le l) := by
  induction l with
  | nil => simp [sortBy]
  | cons x xs ih => exact pairwise_insertLe le htrans htotal x _ ih

/-! ## Lemmas: first-occurrence deduplication -/

theorem mem_firstOccurAux [DecidableEq α] (x : α) :
    ∀ (l seen : List α), x ∈ firstOccurAux seen l → x ∈ l ∧ x ∉ seen := by
  intro l
  induction l with
  | nil =>
    intro seen h
    simp [firstOccurAux] at h
  | cons y ys ih =>
    intro seen h
    simp only [firstOccurAux] at h
    split at h
    · rcases ih seen h with ⟨h1, h2⟩
      exact ⟨List.mem_cons_of_mem y h1, h2⟩
    · rename_i hy
      rcases List.mem_cons.mp h with rfl | h
      · exact ⟨List.mem_cons_self x ys, hy⟩
      · rcases ih (y :: seen) h with ⟨h1, h2⟩
        refine ⟨List.mem_cons_of_mem y h1, fun hc => h2 ?_⟩
        exact List.mem_cons_of_mem y hc

theorem mem_firstOccurAux_of [DecidableEq α] (x : α) :
    ∀ (l seen : List α), x ∈ l → x ∉ seen → x ∈ firstOccurAux seen l := by
  intro l
  induction l with
  | nil =>
    intro seen h _
    simp at h
  | cons y ys ih =>
    intro seen hmem hseen
    simp only [firstOccurAux]
    split
    · rename_i hy
      rcases List.mem_cons.mp hmem with rfl | h
      · exact absurd hy hseen
      · exact ih seen h hseen
    · rcases List.mem_cons.mp hmem with rfl | h
      · exact List.mem_cons_self x _
      · by_cases hxy : x = y
        · subst hxy
          exact List.mem_cons_self x _
        · refine List.mem_cons_of_mem y (ih (y :: seen) h ?_)
          intro hc
          rcases List.mem_cons.mp hc with h' | h'
          · exact hxy h'
          · exact hseen h'

theorem mem_firstOccur [DecidableEq α] (x : α) (l : List α) :
    x ∈ firstOccur l ↔ x ∈ l := by
  constructor
  · intro h
    exact (mem_firstOccurAux x l [] h).1
  · intro h
    exact mem_firstOccurAux_of x l [] h (by simp)

theorem nodup_firstOccurAux [DecidableEq α] :
    ∀ (l seen : List α), (firstOccurAux seen l).Nodup := by
  intro l
  induction l with
  | nil =>
    intro seen
    simp [firstOccurAux]
  | cons y ys ih =>
    intro seen
    simp only [firstOccurAux]
    split
    · exact ih seen
    · refine List.Nodup.cons ?_ (ih (y :: seen))
      intro hc
      exact (mem_firstOccurAux y ys (y :: seen) hc).2 (List.mem_cons_self y seen)

theorem nodup_firstOccur [DecidableEq α] (l : List α) :
    (firstOccur l).Nodup := nodup_firstOccurAux l []

theorem firstOccurAux_congr [DecidableEq α] :
    ∀ (l s₁ s₂ : List α), (∀ y, y ∈ s₁ ↔ y ∈ s₂) →
      firstOccurAux s₁ l = firstOccurAux s₂ l := by
  intro l
  induction l with
  | nil =>
    intro s₁ s₂ _
    rfl
  | cons y ys ih =>
    intro s₁ s₂ hs
    simp only [firstOccurAux]
    by_cases hy : y ∈ s₁
    · rw [if_pos hy, if_pos ((hs y).mp hy)]
      exact ih s₁ s₂ hs
    · rw [if_neg hy, if_neg (fun hc => hy ((hs y).mpr hc))]
      refine congrArg (y :: ·) (ih (y :: s₁) (y :: s₂) ?_)
      intro z
      simp only [List.mem_cons]
      exact or_congr Iff.rfl (hs z)

theorem firstOccurAux_eq_self [DecidableEq α] :
    ∀ (l seen : List α), l.Nodup → (∀ x ∈ l, x ∉ seen) →
      firstOccurAux seen l = l := by
  intro l
  induction l with
  | nil =>
    intro seen _ _
    rfl
  | cons y ys ih =>
    intro seen hnd hdisj
    simp only [firstOccurAux]
    rw [if_neg (hdisj y (List.mem_cons_self y ys))]
    refine congrArg (y :: ·) (ih (y :: seen) (List.nodup_cons.mp hnd).2 ?_)
    intro x hx
    intro hc
    rcases List.mem_cons.mp hc with rfl | h
    · exact (List.nodup_cons.mp hnd).1 hx
    · exact hdisj x (List.mem_cons_of_mem y hx) h

theorem firstOccur_eq_self [DecidableEq α] (l : List α) (h : l.Nodup) :
    firstOccur l = l :=
  firstOccurAux_eq_self l [] h (by simp)

/-! ## Lemmas: association lists -/

theorem lookup_isSome_iff [DecidableEq σ] (k : σ) :
    ∀ (m : List (σ × β)), (lookupA k m).isSome = true ↔ k ∈ keysA m := by
  intro m
  induction m with
  | nil => simp [lookupA, keysA]
  | cons p rest ih =>
    simp only [lookupA, keysA, List.map_cons, List.mem_cons]
    split
    · rename_i h
      simp [h.symm]
    · rename_i h
      simp only [Option.isSome] at ih ⊢
      rw [ih]
      constructor
      · intro hm
        exact Or.inr hm
      · rintro (rfl | hm)
        · exact absurd rfl h
        · exact hm

theorem lookup_updAdd_self [DecidableEq σ] [AddCommMonoid β] (k : σ) (v : β) :
    ∀ (m : List (σ × β)),
      lookupA k (updAdd m k v) = some ((lookupA k m).getD 0 + v) := by
  intro m
  induction m with
  | nil => simp [updAdd, lookupA]
  | cons p rest ih =>
    rcases p with ⟨k', v'⟩
    simp only [updAdd]
    by_cases h : k' = k
    · subst h
      simp [lookupA]
    · rw [if_neg h]
      simp only [lookupA, if_neg h]
      exact ih

theorem lookup_updAdd_ne [DecidableEq σ] [Add β] (k k₀ : σ) (v : β)
    (hne : k₀ ≠ k) :
    ∀ (m : List (σ × β)), lookupA k (updAdd m k₀ v) = lookupA k m := by
  intro m
  induction m with
  | nil => simp [updAdd, lookupA, hne]
  | cons p rest ih =>
    rcases p with ⟨k', v'⟩
    simp only [updAdd]
    by_cases h : k' = k₀
    · subst h
      simp [lookupA, hne]
    · rw [if_neg h]
      simp only [lookupA]
      split
      · rfl
      · exact ih

theorem keys_updAdd [DecidableEq σ] [Add β] (k : σ) (v : β) :
    ∀ (m : List (σ × β)),
      keysA (updAdd m k v) =
        if k ∈ keysA m then keysA m else keysA m ++ [k] := by
  intro m
  induction m with
  | nil => simp [updAdd, keysA]
  | cons p rest ih =>
    rcases p with ⟨k', v'⟩
    simp only [updAdd, keysA, List.map_cons, List.mem_cons]
    by_cases h : k' = k
    · subst h
      simp [keysA]
    · rw [if_neg h]
      simp only [keysA, List.map_cons] at ih ⊢
      rw [ih]
      by_cases hm : k ∈ List.map Prod.fst rest
      · simp [hm, Ne.symm h]
      · simp [hm, Ne.symm h]

theorem lookupD_foldAdd [DecidableEq σ] [AddCommMonoid β] (k : σ) :
    ∀ (ps : List (σ × β)) (m : List (σ × β)),
      (lookupA k (foldAdd m ps)).getD 0 =
        (lookupA k m).getD 0 +
          ((ps.filter (fun p => decide (p.1 = k))).map Prod.snd).sum := by
  intro ps
  induction ps with
  | nil =>
    intro m
    simp [foldAdd]
  | cons p rest ih =>
    intro m
    rcases p with ⟨k₀, v₀⟩
    have hstep : foldAdd m ((k₀, v₀) :: rest) = foldAdd (updAdd m k₀ v₀) rest := rfl
    rw [hstep, ih]
    by_cases h : k₀ = k
    · subst h
      rw [lookup_updAdd_self]
      simp [add_assoc]
    · rw [lookup_updAdd_ne k k₀ v₀ h]
      simp [h]

theorem mem_keys_foldAdd [DecidableEq σ] [Add β] (k : σ) :
    ∀ (ps : List (σ × β)) (m : List (σ × β)),
      k ∈ keysA (foldAdd m ps) ↔ k ∈ keysA m ∨ k ∈ ps.map Prod.fst := by
  intro ps
  induction ps with
  | nil =>
    intro m
    simp [foldAdd]
  | cons p rest ih =>
    intro m
    rcases p with ⟨k₀, v₀⟩
    have hstep : foldAdd m ((k₀, v₀) :: rest) = foldAdd (updAdd m k₀ v₀) rest := rfl
    rw [hstep, ih]
    rw [keys_updAdd]
    by_cases hm : k₀ ∈ keysA m
    · rw [if_pos hm]
      simp only [List.map_cons, List.mem_cons]
      constructor
      · rintro (h | h)
        · exact Or.inl h
        · exact Or.inr (Or.inr h)
      · rintro (h | rfl | h)
        · exact Or.inl h
        · exact Or.inl hm
        · exact Or.inr h
    · rw [if_neg hm]
      simp only [List.mem_append, List.mem_singleton, List.map_cons,
        List.mem_cons]
      tauto

theorem keys_foldAdd [DecidableEq σ] [Add β] :
    ∀ (ps : List (σ × β)) (m : List (σ × β)),
      keysA (foldAdd m ps) =
        keysA m ++ firstOccurAux (keysA m) (ps.map Prod.fst) := by
  intro ps
  induction ps with
  | nil =>
    intro m
    simp [foldAdd, firstOccurAux]
  | cons p rest ih =>
    intro m
    rcases p with ⟨k₀, v₀⟩
    have hstep : foldAdd m ((k₀, v₀) :: rest) = foldAdd (updAdd m k₀ v₀) rest := rfl
    rw [hstep, ih, keys_updAdd]
    simp only [List.map_cons, firstOccurAux]
    by_cases hm : k₀ ∈ keysA m
    · rw [if_pos hm, if_pos hm]
    · rw [if_neg hm, if_neg hm]
      rw [List.append_assoc]
      simp only [List.singleton_append]
      refine congrArg (keysA m ++ k₀ :: ·) ?_
      refine firstOccurAux_congr _ _ _ ?_
      intro y
      simp only [List.mem_append, List.mem_singleton, List.mem_cons]
      tauto

theorem nodup_keys_foldAdd [DecidableEq σ] [Add β] (ps : List (σ × β))
    (m : List (σ × β)) (hm : (keysA m).Nodup) :
    (keysA (foldAdd m ps)).Nodup := by
  rw [keys_foldAdd]
  refine List.Nodup.append hm (nodup_firstOccurAux _ _) ?_
  intro a ha hb
  exact (mem_firstOccurAux a _ _ hb).2 ha

/-! ## Lemmas: set insertion -/

theorem mem_foldl_insertSet [DecidableEq σ] (f : γ → σ) (x : σ) :
    ∀ (l : List γ) (s : List σ),
      x ∈ l.foldl (fun s y => insertSet s (f y)) s ↔ x ∈ s ∨ x ∈ l.map f := by
  intro l
  induction l with
  | nil =>
    intro s
    simp
  | cons y ys ih =>
    intro s
    simp only [List.foldl_cons, List.map_cons, List.mem_cons]
    rw [ih]
    simp only [insertSet]
    split
    · rename_i h
      constructor
      · rintro (h' | h')
        · exact Or.inl h'
        · exact Or.inr (Or.inr h')
      · rintro (h' | rfl | h')
        · exact Or.inl h'
        · exact Or.inl h
        · exact Or.inr h'
    · simp only [List.mem_append, List.mem_singleton]
      tauto

theorem nodup_foldl_insertSet [DecidableEq σ] (f : γ → σ) :
    ∀ (l : List γ) (s : List σ), s.Nodup →
      (l.foldl (fun s y => insertSet s (f y)) s).Nodup := by
  intro l
  induction l with
  | nil =>
    intro s hs
    exact hs
  | cons y ys ih =>
    intro s hs
    refine ih _ ?_
    simp only [insertSet]
    split
    · exact hs
    · rename_i h
      simp [List.nodup_append, hs, h]

/-! ## Lemmas: the nested aggregation map -/

theorem updAdd_ne_nil [DecidableEq σ] [Add β] (m : List (σ × β)) (k : σ)
    (v : β) : updAdd m k v ≠ [] := by
  cases m with
  | nil => simp [updAdd]
  | cons p rest =>
    rcases p with ⟨k', v'⟩
    simp only [updAdd]
    split <;> simp

theorem lookup_updNest_self (t d : String) (tf : Nat) :
    ∀ (m : List (String × List (String × Nat))),
      lookupA t (updNest m t d tf) =
        some (updAdd ((lookupA t m).getD []) d tf) := by
  intro m
  induction m with
  | nil => simp [updNest, lookupA]
  | cons p rest ih =>
    rcases p with ⟨t', inner⟩
    simp only [updNest]
    by_cases h : t' = t
    · subst h
      simp [lookupA]
    · rw [if_neg h]
      simp only [lookupA, if_neg h]
      exact ih

theorem lookup_updNest_ne (u t d : String) (tf : Nat) (hne : t ≠ u) :
    ∀ (m : List (String × List (String × Nat))),
      lookupA u (updNest m t d tf) = lookupA u m := by
  intro m
  induction m with
  | nil => simp [updNest, lookupA, hne]
  | cons p rest ih =>
    rcases p with ⟨t', inner⟩
    simp only [updNest]
    by_cases h : t' = t
    · subst h
      simp [lookupA, hne]
    · rw [if_neg h]
      simp only [lookupA]
      split
      · rfl
      · exact ih

theorem keys_updNest (t d : String) (tf : Nat) :
    ∀ (m : List (String × List (String × Nat))),
      keysA (updNest m t d tf) =
        if t ∈ keysA m then keysA m else keysA m ++ [t] := by
  intro m
  induction m with
  | nil => simp [updNest, keysA]
  | cons p rest ih =>
    rcases p with ⟨t', inner⟩
    simp only [updNest, keysA, List.map_cons, List.mem_cons]
    by_cases h : t' = t
    · subst h
      simp [keysA]
    · rw [if_neg h]
      simp only [keysA, List.map_cons] at ih ⊢
      rw [ih]
      by_cases hm : t ∈ List.map Prod.fst rest
      · simp [hm, Ne.symm h]
      · simp [hm, Ne.symm h]

theorem lookup_foldNest_some (t : String) :
    ∀ (triples : List (String × String × Nat))
      (m : List (String × List (String × Nat))) (inner : List (String × Nat)),
      lookupA t m = some inner →
      lookupA t (triples.foldl (fun m x => updNest m x.1 x.2.1 x.2.2) m) =
        some (foldAdd inner (selTriples t triples)) := by
  intro triples
  induction triples with
  | nil =>
    intro m inner h
    simpa [selTriples, foldAdd] using h
  | cons x rest ih =>
    intro m inner h
    rcases x with ⟨t', d, tf⟩
    simp only [List.foldl_cons]
    by_cases ht : t' = t
    · subst ht
      have hupd : lookupA t' (updNest m t' d tf) = some (updAdd inner d tf) := by
        rw [lookup_updNest_self, h]
        rfl
      rw [ih _ _ hupd]
      simp [selTriples, foldAdd]
    · have hupd : lookupA t (updNest m t' d tf) = some inner := by
        rw [lookup_updNest_ne t t' d tf ht]
        exact h
      rw [ih _ _ hupd]
      simp [selTriples, ht]

theorem lookup_foldNest_none (t : String) :
    ∀ (triples : List (String × String × Nat))
      (m : List (String × List (String × Nat))),
      lookupA t m = none →
      lookupA t (triples.foldl (fun m x => updNest m x.1 x.2.1 x.2.2) m) =
        if t ∈ triples.map (fun x => x.1) then
          some (foldAdd [] (selTriples t triples))
        else none := by
  intro triples
  induction triples with
  | nil =>
    intro m h
    simpa using h
  | cons x rest ih =>
    intro m h
    rcases x with ⟨t', d, tf⟩
    simp only [List.foldl_cons, List.map_cons, List.mem_cons]
    by_cases ht : t' = t
    · subst ht
      have hupd : lookupA t' (updNest m t' d tf) = some (updAdd [] d tf) := by
        rw [lookup_updNest_self, h]
        rfl
      rw [lookup_foldNest_some t' rest _ _ hupd]
      rw [if_pos (Or.inl rfl)]
      simp [selTriples, foldAdd]
    · have hupd : lookupA t (updNest m t' d tf) = none := by
        rw [lookup_updNest_ne t t' d tf ht]
        exact h
      rw [ih _ hupd]
      have hsel : selTriples t ((t', d, tf) :: rest) = selTriples t rest := by
        simp [selTriples, ht]
      rw [hsel]
      by_cases hm : t ∈ rest.map (fun x => x.1)
      · rw [if_pos hm, if_pos (Or.inr hm)]
      · rw [if_neg hm, if_neg ?_]
        rintro (h' | h')
        · exact ht h'.symm
        · exact hm h'

theorem keys_foldNest :
    ∀ (triples : List (String × String × Nat))
      (m : List (String × List (String × Nat))),
      keysA (triples.foldl (fun m x => updNest m x.1 x.2.1 x.2.2) m) =
        keysA m ++ firstOccurAux (keysA m) (triples.map (fun x => x.1)) := by
  intro triples
  induction triples with
  | nil =>
    intro m
    simp [firstOccurAux]
  | cons x rest ih =>
    intro m
    rcases x with ⟨t, d, tf⟩
    simp only [List.foldl_cons, List.map_cons, firstOccurAux]
    rw [ih, keys_updNest]
    by_cases hm : t ∈ keysA m
    · rw [if_pos hm, if_pos hm]
    · rw [if_neg hm, if_neg hm]
      rw [List.append_assoc]
      simp only [List.singleton_append]
      refine congrArg (keysA m ++ t :: ·) ?_
      refine firstOccurAux_congr _ _ _ ?_
      intro y
      simp only [List.mem_append, List.mem_singleton, List.mem_cons]
      tauto

theorem keys_aggregate (triples : List (String × String × Nat)) :
    keysA (aggregate triples) = firstOccur (triples.map (fun x => x.1)) := by
  have := keys_foldNest triples []
  simpa [aggregate, keysA, firstOccur] using this

theorem nodup_keys_aggregate (triples : List (String × String × Nat)) :
    (keysA (aggregate triples)).Nodup := by
  rw [keys_aggregate]
  exact nodup_firstOccur _

theorem lookup_aggregate (triples : List (String × String × Nat))
    (t : String) (h : t ∈ keysA (aggregate triples)) :
    lookupA t (aggregate triples) =
      some (foldAdd [] (selTriples t triples)) := by
  have hm : t ∈ triples.map (fun x => x.1) := by
    rw [keys_aggregate] at h
    exact (mem_firstOccur t _).mp h
  have := lookup_foldNest_none t triples [] rfl
  rw [if_pos hm] at this
  exact this

theorem inner_ne_nil_aggregate (triples : List (String × String × Nat)) :
    ∀ e ∈ aggregate triples, e.2 ≠ [] := by
  suffices h : ∀ (tr : List (String × String × Nat))
      (m : List (String × List (String × Nat))),
      (∀ e ∈ m, e.2 ≠ []) →
      ∀ e ∈ tr.foldl (fun m x => updNest m x.1 x.2.1 x.2.2) m, e.2 ≠ [] by
    intro e he
    exact h triples [] (by simp) e he
  intro tr
  induction tr with
  | nil =>
    intro m hm e he
    exact hm e he
  | cons x rest ih =>
    intro m hm e he
    refine ih _ ?_ e he
    clear he
    induction m with
    | nil =>
      intro e' he'
      simp only [updNest, List.mem_singleton] at he'
      subst he'
      exact updAdd_ne_nil _ _ _
    | cons p prest ihm =>
      rcases p with ⟨t', inner⟩
      intro e' he'
      simp only [updNest] at he'
      split at he'
      · rcases List.mem_cons.mp he' with rfl | h'
        · exact updAdd_ne_nil _ _ _
        · exact hm _ (List.mem_cons_of_mem _ h')
      · rcases List.mem_cons.mp he' with rfl | h'
        · exact hm _ (List.mem_cons_self _ _)
        · refine ihm ?_ e' h'
          intro e'' he''
          exact hm _ (List.mem_cons_of_mem _ he'')

/-! ## Lemmas: merge records -/

theorem length_eq_of_nodup_of_mem_iff [DecidableEq α] (a b : List α)
    (ha : a.Nodup) (hb : b.Nodup) (h : ∀ x, x ∈ a ↔ x ∈ b) :
    a.length = b.length := by
  rw [← List.toFinset_card_of_nodup ha, ← List.toFinset_card_of_nodup hb]
  congr 1
  ext x
  simp only [List.mem_toFinset]
  exact h x

theorem records_map_term (ops : NumOps) (files : List (Nat × Block)) :
    (mergeRecords ops files).map PostingsRecord.term =
      sortBy strLe (keysA (aggregate (blockTriples files))) := by
  simp [mergeRecords, List.map_map, recordFor, Function.comp_def]

theorem nodup_records_terms (ops : NumOps) (files : List (Nat × Block)) :
    ((mergeRecords ops files).map PostingsRecord.term).Nodup := by
  rw [records_map_term]
  exact ((perm_sortBy strLe _).nodup_iff).mpr (nodup_keys_aggregate _)

theorem pairwise_strLt_records (ops : NumOps) (files : List (Nat × Block)) :
    List.Pairwise (fun a b => strLt a b = true)
      ((mergeRecords ops files).map PostingsRecord.term) := by
  have hle : List.Pairwise (fun a b => strLe a b = true)
      ((mergeRecords ops files).map PostingsRecord.term) := by
    rw [records_map_term]
    exact pairwise_sortBy strLe strLe_trans strLe_total _
  have hnd := nodup_records_terms ops files
  have := hle.and hnd
  exact this.imp (fun h => strLt_of_strLe_of_ne _ _ h.1 h.2)

theorem mem_mergeRecords (ops : NumOps) (files : List (Nat × Block))
    (r : PostingsRecord) :
    r ∈ mergeRecords ops files ↔
      ∃ t ∈ keysA (aggregate (blockTriples files)),
        r = recordFor ops (allDocIds (blockTriples files)).length t
          (foldAdd [] (selTriples t (blockTriples files))) := by
  simp only [mergeRecords, List.mem_map]
  constructor
  · rintro ⟨t, ht, rfl⟩
    have htk : t ∈ keysA (aggregate (blockTriples files)) :=
      (perm_sortBy strLe _).mem_iff.mp ht
    refine ⟨t, htk, ?_⟩
    rw [lookup_aggregate _ t htk]
    rfl
  · rintro ⟨t, htk, rfl⟩
    refine ⟨t, (perm_sortBy strLe _).mem_iff.mpr htk, ?_⟩
    rw [lookup_aggregate _ t htk]
    rfl

theorem selTriples_map_fst (t : String)
    (triples : List (String × String × Nat)) :
    (selTriples t triples).map Prod.fst =
      (triples.filter (fun x => decide (x.1 = t))).map (fun x => x.2.1) := by
  simp [selTriples, List.map_map, Function.comp]

theorem mem_blockTriples (files : List (Nat × Block))
    (x : String × String × Nat) (h : x ∈ blockTriples files) :
    ∃ f ∈ files, ∃ tp ∈ f.2, ∃ p ∈ tp.2, x = (tp.1, p.1, p.2) := by
  simp only [blockTriples, List.mem_flatMap, List.mem_map] at h
  rcases h with ⟨f, hf, tp, htp, p, hp, rfl⟩
  exact ⟨f, (perm_sortBy _ _).mem_iff.mp hf, tp, htp, p, hp, rfl⟩

theorem mem_docs_iff (files : List (Nat × Block)) (t d : String) :
    d ∈ keysA (foldAdd [] (selTriples t (blockTriples files))) ↔
      d ∈ (selTriples t (blockTriples files)).map Prod.fst := by
  rw [mem_keys_foldAdd]
  simp [keysA]

theorem mem_allDocIds (triples : List (String × String × Nat)) (d : String) :
    d ∈ allDocIds triples ↔ d ∈ triples.map (fun x => x.2.1) := by
  rw [show allDocIds triples =
      triples.foldl (fun s x => insertSet s x.2.1) [] from rfl]
  rw [mem_foldl_insertSet (fun x => x.2.1) d triples []]
  simp

theorem nodup_allDocIds (triples : List (String × String × Nat)) :
    (allDocIds triples).Nodup :=
  nodup_foldl_insertSet (fun x : String × String × Nat => x.2.1) triples []
    (by simp)

theorem mem_docSqSums_keys (ops : NumOps) (files : List (Nat × Block))
    (d : String) :
    d ∈ keysA (docSqSums ops files) ↔
      d ∈ (blockTriples files).map (fun x => x.2.1) := by
  rw [show docSqSums ops files =
    foldAdd [] ((mergeRecords ops files).flatMap
      (fun r => r.postings.map (fun p => (p.1, p.2 * p.2)))) from rfl]
  rw [mem_keys_foldAdd]
  simp only [keysA, List.map_nil, List.not_mem_nil, false_or]
  constructor
  · intro h
    simp only [List.map_flatMap, List.mem_flatMap, List.map_map] at h
    rcases h with ⟨r, hr, hd⟩
    rcases (mem_mergeRecords ops files r).mp hr with ⟨t, htk, rfl⟩
    simp only [recordFor, List.map_map, List.mem_map, Function.comp_def] at hd
    rcases hd with ⟨q, hq, rfl⟩
    have hq1 : q.1 ∈ keysA (foldAdd [] (selTriples t (blockTriples files))) :=
      List.mem_map_of_mem Prod.fst hq
    rw [mem_docs_iff, selTriples_map_fst] at hq1
    simp only [List.mem_map, List.mem_filter] at hq1
    rcases hq1 with ⟨x, ⟨hx, _⟩, hxd⟩
    exact List.mem_map.mpr ⟨x, hx, hxd⟩
  · intro h
    rcases List.mem_map.mp h with ⟨x, hx, rfl⟩
    have htk : x.1 ∈ keysA (aggregate (blockTriples files)) := by
      rw [keys_aggregate, mem_firstOccur]
      exact List.mem_map_of_mem (fun y => y.1) hx
    set t := x.1 with ht
    set N := (allDocIds (blockTriples files)).length with hN
    set docs := foldAdd [] (selTriples t (blockTriples files)) with hdocs
    have hr : recordFor ops N t docs ∈ mergeRecords ops files :=
      (mem_mergeRecords ops files _).mpr ⟨t, htk, rfl⟩
    have hq : x.2.1 ∈ keysA docs := by
      rw [hdocs, mem_docs_iff, selTriples_map_fst]
      refine List.mem_map.mpr ⟨x, ?_, rfl⟩
      rw [List.mem_filter]
      exact ⟨hx, by simp⟩
    rcases List.mem_map.mp hq with ⟨q, hqdocs, hqd⟩
    simp only [List.map_flatMap, List.mem_flatMap, List.map_map]
    refine ⟨recordFor ops N t docs, hr, ?_⟩
    simp only [recordFor, List.map_map, List.mem_map, Function.comp_def]
    exact ⟨q, hqdocs, hqd⟩

theorem doc_norms_length (ops : NumOps) (files : List (Nat × Block)) :
    (docNormsOf ops files).length = (allDocIds (blockTriples files)).length := by
  have h1 : (docNormsOf ops files).length = (keysA (docSqSums ops files)).length := by
    simp [docNormsOf, keysA]
  rw [h1]
  refine length_eq_of_nodup_of_mem_iff _ _ ?_ (nodup_allDocIds _) ?_
  · exact nodup_keys_foldAdd _ [] (by simp [keysA])
  · intro d
    rw [mem_docSqSums_keys, mem_allDocIds]

/-! ## Lemmas: the write loop, offsets and slices -/

theorem writeRecords_lookup :
    ∀ (rs : List PostingsRecord) (off : Nat),
      (rs.map PostingsRecord.term).Nodup →
      ∀ r ∈ rs, ∃ e, lookupA r.term (writeRecords rs off).2 = some e ∧
        e.df = r.df := by
  intro rs
  induction rs with
  | nil =>
    intro off _ r hr
    simp at hr
  | cons r₀ rest ih =>
    intro off hnd r hr
    simp only [List.map_cons, List.nodup_cons] at hnd
    rcases List.mem_cons.mp hr with rfl | hr'
    · refine ⟨⟨r.df, off, (lineBytes r).length⟩, ?_, rfl⟩
      simp [writeRecords, lookupA]
    · have hne : r₀.term ≠ r.term := by
        intro hc
        exact hnd.1 (hc ▸ List.mem_map_of_mem PostingsRecord.term hr')
      rcases ih (off + (lineBytes r₀).length) hnd.2 r hr' with ⟨e, he, hdf⟩
      refine ⟨e, ?_, hdf⟩
      simp only [writeRecords, lookupA, if_neg hne]
      exact he

theorem writeRecords_slice :
    ∀ (rs : List PostingsRecord) (off : Nat) (t : String) (e : VocabEntry),
      lookupA t (writeRecords rs off).2 = some e →
      off ≤ e.offset ∧ ∃ r ∈ rs, r.term = t ∧ r.df = e.df ∧
        sliceBytes (writeRecords rs off).1 (e.offset - off) e.length =
          lineBytes r := by
  intro rs
  induction rs with
  | nil =>
    intro off t e h
    simp [writeRecords, lookupA] at h
  | cons r₀ rest ih =>
    intro off t e h
    simp only [writeRecords, lookupA] at h
    by_cases ht : r₀.term = t
    · rw [if_pos ht] at h
      rcases Option.some.inj h with rfl
      refine ⟨Nat.le_refl off, r₀, List.mem_cons_self _ _, ht, rfl, ?_⟩
      simp only [sliceBytes, Nat.sub_self, List.drop_zero]
      exact List.take_left _ _
    · rw [if_neg ht] at h
      rcases ih (off + (lineBytes r₀).length) t e h with
        ⟨hoff, r, hr, hterm, hdf, hslice⟩
      refine ⟨by omega, r, List.mem_cons_of_mem r₀ hr, hterm, hdf, ?_⟩
      simp only [sliceBytes] at hslice ⊢
      have harith : e.offset - off =
          (lineBytes r₀).length + (e.offset - (off + (lineBytes r₀).length)) := by
        omega
      simp only [writeRecords]
      rw [harith, List.drop_append]
      exact hslice

/-! ## Lemmas: aggregated document frequencies -/

theorem selSum_eq_cumTf (files : List (Nat × Block)) (t d : String) :
    (((selTriples t (blockTriples files)).filter
      (fun p => decide (p.1 = d))).map Prod.snd).sum = cumTf files t d := by
  simp only [selTriples, cumTf, List.filter_map, List.filter_filter,
    List.map_map, Function.comp_def]
  have h : ∀ x ∈ blockTriples files,
      (decide (x.2.1 = d) && decide (x.1 = t)) =
        (decide (x.1 = t) && decide (x.2.1 = d)) :=
    fun x _ => Bool.and_comm _ _
  rw [List.filter_congr h]

theorem docs_lookup_value (files : List (Nat × Block)) (t d : String)
    (hd : d ∈ keysA (foldAdd [] (selTriples t (blockTriples files)))) :
    lookupA d (foldAdd [] (selTriples t (blockTriples files))) =
      some (cumTf files t d) := by
  have hs : (lookupA d (foldAdd []
      (selTriples t (blockTriples files)))).isSome = true :=
    (lookup_isSome_iff d _).mpr hd
  rcases Option.isSome_iff_exists.mp hs with ⟨tfv, htfv⟩
  have := lookupD_foldAdd d (selTriples t (blockTriples files)) []
  rw [htfv] at this
  simp only [lookupA, Option.getD_some, Option.getD_none] at this
  rw [htfv, this, selSum_eq_cumTf]
  simp

theorem cumTf_pos (files : List (Nat × Block)) (t d : String)
    (htf : ∀ f ∈ files, ∀ tp ∈ f.2, ∀ p ∈ tp.2, 1 ≤ p.2)
    (hd : d ∈ (selTriples t (blockTriples files)).map Prod.fst) :
    1 ≤ cumTf files t d := by
  rw [selTriples_map_fst] at hd
  simp only [List.mem_map, List.mem_filter] at hd
  rcases hd with ⟨x, ⟨hx, hxt⟩, hxd⟩
  have hmem : x.2.2 ∈ (((blockTriples files).filter
      (fun y => decide (y.1 = t) && decide (y.2.1 = d))).map
      (fun y => y.2.2)) := by
    refine List.mem_map.mpr ⟨x, ?_, rfl⟩
    rw [List.mem_filter]
    refine ⟨hx, ?_⟩
    simp only [Bool.and_eq_true, decide_eq_true_eq]
    exact ⟨by simpa using hxt, hxd⟩
  have hle : x.2.2 ≤ cumTf files t d := by
    rw [cumTf]
    exact List.single_le_sum (fun z _ => Nat.zero_le z) _ hmem
  have hx1 : 1 ≤ x.2.2 := by
    rcases mem_blockTriples files x hx with ⟨f, hf, tp, htp, p, hp, rfl⟩
    exact htf f hf tp htp p hp
  omega

/-! ## Lemmas: query engine accumulation -/

theorem read_postings_snd (vocab : List (String × VocabEntry))
    (store : List Nat) (decode : List Nat → Option (List (String × ℚ)))
    (t : String) :
    (read_postings vocab store decode t).2 =
      match lookupA t vocab with
      | some m => m.length
      | none => 0 := by
  cases h : lookupA t vocab with
  | none => simp [read_postings, h]
  | some meta =>
    simp only [read_postings, h]
    cases decode (sliceBytes store meta.offset meta.length) <;> rfl

theorem accum_bytes (ops : NumOps) (vocab : List (String × VocabEntry))
    (norms : List (String × ℚ)) (store : List Nat)
    (decode : List Nat → Option (List (String × ℚ))) :
    ∀ (items : List (String × Nat)) (st : AccumState),
      (items.foldl (accumStep ops vocab norms store decode) st).bytes =
        st.bytes + (((items.map Prod.fst).map (fun t =>
          match lookupA t vocab with
          | some m => m.length
          | none => 0)).sum) := by
  intro items
  induction items with
  | nil =>
    intro st
    simp
  | cons p rest ih =>
    intro st
    simp only [List.foldl_cons, List.map_cons, List.sum_cons]
    rw [ih]
    have hstep : (accumStep ops vocab norms store decode st p).bytes =
        st.bytes + (match lookupA p.1 vocab with
          | some m => m.length
          | none => 0) := by
      cases h : lookupA p.1 vocab with
      | none => simp [accumStep, h]
      | some meta =>
        simp only [accumStep, h]
        rw [read_postings_snd vocab store decode p.1, h]
    rw [hstep]
    omega

theorem keys_qTermFreqs (tokens : List String) :
    keysA (qTermFreqs tokens) = firstOccur tokens := by
  rw [show qTermFreqs tokens =
    foldAdd [] (tokens.map (fun t => (t, 1))) from rfl]
  rw [keys_foldAdd]
  simp [keysA, firstOccur, List.map_map, Function.comp_def]

theorem queryAccum_keys_nodup (ops : NumOps)
    (vocab : List (String × VocabEntry)) (norms : List (String × ℚ))
    (store : List Nat) (decode : List Nat → Option (List (String × ℚ)))
    (tokens : List String) :
    (keysA (queryAccum ops vocab norms store decode tokens).accum).Nodup := by
  suffices h : ∀ (items : List (String × Nat)) (st : AccumState),
      (keysA st.accum).Nodup →
      (keysA ((items.foldl (accumStep ops vocab norms store decode)
        st).accum)).Nodup by
    exact h _ _ (by simp [keysA])
  intro items
  induction items with
  | nil =>
    intro st hst
    exact hst
  | cons p rest ih =>
    intro st hst
    simp only [List.foldl_cons]
    refine ih _ ?_
    simp only [accumStep]
    cases lookupA p.1 vocab with
    | none => exact hst
    | some meta => exact nodup_keys_foldAdd _ _ hst

/-! ## Lemmas: the bounded top-k heap -/

theorem heapMin_mem :
    ∀ (heap : List (ℚ × String)) (m : ℚ × String),
      heapMin heap = some m → m ∈ heap := by
  intro heap
  induction heap with
  | nil =>
    intro m h
    simp [heapMin] at h
  | cons x xs ih =>
    intro m h
    simp only [heapMin] at h
    cases hx : heapMin xs with
    | none =>
      rw [hx] at h
      rcases Option.some.inj h with rfl
      exact List.mem_cons_self _ _
    | some m' =>
      rw [hx] at h
      rcases Option.some.inj h with rfl
      split
      · exact List.mem_cons_of_mem x (ih m' hx)
      · exact List.mem_cons_self _ _

theorem heapMin_cons_isSome (x : ℚ × String) (xs : List (ℚ × String)) :
    ∃ m, heapMin (x :: xs) = some m := by
  simp only [heapMin]
  cases heapMin xs with
  | none => exact ⟨x, rfl⟩
  | some m' => exact ⟨if tupLt m' x then m' else x, rfl⟩

theorem removeFirst_length_of_mem [DecidableEq α] (x : α) :
    ∀ (l : List α), x ∈ l → (removeFirst x l).length + 1 = l.length := by
  intro l
  induction l with
  | nil =>
    intro h
    simp at h
  | cons y ys ih =>
    intro h
    simp only [removeFirst]
    by_cases hy : y = x
    · rw [if_pos hy]
      simp
    · rw [if_neg hy]
      rcases List.mem_cons.mp h with rfl | h'
      · exact absurd rfl hy
      · simp only [List.length_cons]
        rw [← ih h']

theorem removeFirst_sublist [DecidableEq α] (x : α) :
    ∀ (l : List α), (removeFirst x l).Sublist l := by
  intro l
  induction l with
  | nil => simp [removeFirst]
  | cons y ys ih =>
    simp only [removeFirst]
    split
    · exact List.sublist_cons_self y ys
    · exact List.Sublist.cons₂ y ih

theorem heapPush_length (k : Nat) (hk : 1 ≤ k) (heap : List (ℚ × String))
    (x : ℚ × String) (hle : heap.length ≤ k) :
    (heapPush k heap x).length = min k (heap.length + 1) := by
  simp only [heapPush]
  by_cases hlt : heap.length < k
  · rw [if_pos hlt]
    simp only [List.length_append, List.length_singleton]
    omega
  · rw [if_neg hlt]
    have hfull : heap.length = k := by omega
    cases heap with
    | nil =>
      simp only [List.length_nil] at hfull
      omega
    | cons y ys =>
      rcases heapMin_cons_isSome y ys with ⟨m, hm⟩
      simp only [hm]
      split
      · simp only [List.length_append, List.length_singleton]
        have := removeFirst_length_of_mem m (y :: ys) (heapMin_mem _ m hm)
        simp only [List.length_cons] at hfull this ⊢
        omega
      · omega

theorem heapPush_snd_cases (k : Nat) (heap : List (ℚ × String))
    (x y : ℚ × String) (hy : y ∈ heapPush k heap x) :
    y ∈ heap ∨ y = x := by
  simp only [heapPush] at hy
  split at hy
  · rcases List.mem_append.mp hy with h | h
    · exact Or.inl h
    · exact Or.inr (List.mem_singleton.mp h)
  · cases hmin : heapMin heap with
    | none =>
      simp only [hmin] at hy
      exact Or.inl hy
    | some m =>
      simp only [hmin] at hy
      split at hy
      · rcases List.mem_append.mp hy with h | h
        · exact Or.inl ((removeFirst_sublist m heap).mem h)
        · exact Or.inr (List.mem_singleton.mp h)
      · exact Or.inl hy

theorem heapPush_docs_nodup (k : Nat) (heap : List (ℚ × String))
    (x : ℚ × String) (hnd : (heap.map Prod.snd).Nodup)
    (hx : x.2 ∉ heap.map Prod.snd) :
    ((heapPush k heap x).map Prod.snd).Nodup := by
  simp only [heapPush]
  split
  · simp only [List.map_append, List.map_singleton]
    rw [List.nodup_append]
    refine ⟨hnd, by simp, ?_⟩
    intro a ha hb
    rcases List.mem_singleton.mp hb with rfl
    exact hx ha
  · cases hmin : heapMin heap with
    | none =>
      simp only [hmin]
      exact hnd
    | some m =>
      simp only [hmin]
      split
      · simp only [List.map_append, List.map_singleton]
        rw [List.nodup_append]
        have hsub := (removeFirst_sublist m heap).map Prod.snd
        refine ⟨hsub.nodup hnd, by simp, ?_⟩
        intro a ha hb
        rcases List.mem_singleton.mp hb with rfl
        exact hx (hsub.mem ha)
      · exact hnd

theorem scoreFold_length (k : Nat) (hk : 1 ≤ k) (norms : List (String × ℚ))
    (qn : ℚ) :
    ∀ (accum : List (String × ℚ)) (heap : List (ℚ × String)),
      heap.length ≤ k →
      (scoreFold k norms qn heap accum).length =
        min k (heap.length + (accum.filter (fun p =>
          decide ((lookupA p.1 norms).getD 0 ≠ 0))).length) := by
  intro accum
  induction accum with
  | nil =>
    intro heap hle
    simp only [scoreFold, List.foldl_nil, List.filter_nil, List.length_nil,
      Nat.add_zero]
    omega
  | cons p rest ih =>
    intro heap hle
    simp only [scoreFold, List.foldl_cons] at ih ⊢
    by_cases hnrm : (lookupA p.1 norms).getD 0 = 0
    · rw [if_pos hnrm]
      rw [ih heap hle]
      have : (List.filter (fun p =>
          decide ((lookupA p.1 norms).getD 0 ≠ 0)) (p :: rest)) =
          (List.filter (fun p =>
            decide ((lookupA p.1 norms).getD 0 ≠ 0)) rest) := by
        simp [List.filter_cons, hnrm]
      rw [this]
    · rw [if_neg hnrm]
      have hlen := heapPush_length k hk heap
        (p.2 / (qn * (lookupA p.1 norms).getD 0), p.1) hle
      have hle' : (heapPush k heap
          (p.2 / (qn * (lookupA p.1 norms).getD 0), p.1)).length ≤ k := by
        omega
      rw [ih _ hle', hlen]
      have : (List.filter (fun p =>
          decide ((lookupA p.1 norms).getD 0 ≠ 0)) (p :: rest)) =
          p :: (List.filter (fun p =>
            decide ((lookupA p.1 norms).getD 0 ≠ 0)) rest) := by
        simp [List.filter_cons, hnrm]
      rw [this]
      simp only [List.length_cons]
      omega

theorem scoreFold_docs_nodup (k : Nat) (norms : List (String × ℚ)) (qn : ℚ) :
    ∀ (accum : List (String × ℚ)) (heap : List (ℚ × String)),
      (accum.map Prod.fst).Nodup →
      (heap.map Prod.snd).Nodup →
      (∀ d ∈ heap.map Prod.snd, d ∉ accum.map Prod.fst) →
      ((scoreFold k norms qn heap accum).map Prod.snd).Nodup := by
  intro accum
  induction accum with
  | nil =>
    intro heap _ hnd _
    exact hnd
  | cons p rest ih =>
    intro heap hacc hnd hdisj
    simp only [List.map_cons, List.nodup_cons] at hacc
    simp only [scoreFold, List.foldl_cons] at ih ⊢
    by_cases hnrm : (lookupA p.1 norms).getD 0 = 0
    · rw [if_pos hnrm]
      refine ih heap hacc.2 hnd ?_
      intro d hd hc
      exact hdisj d hd (List.mem_cons_of_mem _ hc)
    · rw [if_neg hnrm]
      set x : ℚ × String := (p.2 / (qn * (lookupA p.1 norms).getD 0), p.1)
        with hx
      refine ih (heapPush k heap x) hacc.2 ?_ ?_
      · refine heapPush_docs_nodup k heap x hnd ?_
        intro hc
        exact hdisj p.1 (by simpa [hx] using hc)
          (List.mem_cons_self _ _)
      · intro d hd hc
        rcases List.mem_map.mp hd with ⟨y, hy, rfl⟩
        rcases heapPush_snd_cases k heap x y hy with h | rfl
        · exact hdisj y.2 (List.mem_map_of_mem Prod.snd h)
            (List.mem_cons_of_mem _ hc)
        · exact hacc.1 (by simpa [hx] using hc)

/-! ## Lemmas: text normalization -/

theorem space_toNat (c : Char) (h : isSpaceChar c = true) :
    c.toNat = 32 ∨ c.toNat = 9 ∨ c.toNat = 10 ∨ c.toNat = 13 ∨
      c.toNat = 11 ∨ c.toNat = 12 := by
  simp only [isSpaceChar, Bool.or_eq_true, decide_eq_true_eq] at h
  rcases h with ((((h | h) | h) | h) | h) | h
  · subst h
    left
    rfl
  · subst h
    right
    left
    rfl
  · subst h
    right
    right
    left
    rfl
  · subst h
    right
    right
    right
    left
    rfl
  · exact Or.inr (Or.inr (Or.inr (Or.inr (Or.inl h))))
  · exact Or.inr (Or.inr (Or.inr (Or.inr (Or.inr h))))

theorem kept_bounds (c : Char) (h : isKeptChar c = true) :
    (97 ≤ c.toNat ∧ c.toNat ≤ 122) ∨ (48 ≤ c.toNat ∧ c.toNat ≤ 57) := by
  simp only [isKeptChar, Bool.or_eq_true, Bool.and_eq_true,
    decide_eq_true_eq] at h
  exact h

theorem kept_not_space (c : Char) (h : isKeptChar c = true) :
    isSpaceChar c = false := by
  cases hs : isSpaceChar c
  · rfl
  · exfalso
    have h1 := kept_bounds c h
    have h2 := space_toNat c hs
    omega

theorem space_char_eq (c : Char)
    (hout : isKeptChar c = true ∨ c = ' ')
    (hs : isSpaceChar c = true) : c = ' ' := by
  rcases hout with h | rfl
  · rw [kept_not_space c h] at hs
    exact absurd hs (by simp)
  · rfl

theorem space_char_space : isSpaceChar ' ' = true := by decide

theorem lowerChar_id_out (c : Char)
    (hout : isKeptChar c = true ∨ c = ' ') : lowerChar c = c := by
  rcases hout with h | rfl
  · have h1 := kept_bounds c h
    rw [lowerChar, if_neg (by omega)]
  · rfl

theorem subChar_id_out (c : Char)
    (hout : isKeptChar c = true ∨ c = ' ') : subChar c = c := by
  rcases hout with h | rfl
  · rw [subChar, if_pos (by simp [h])]
  · rfl

theorem flatMap_id_of (uni : Char → List Char) :
    ∀ (l : List Char), (∀ c ∈ l, uni c = [c]) → l.flatMap uni = l := by
  intro l
  induction l with
  | nil =>
    intro _
    rfl
  | cons x xs ih =>
    intro h
    simp only [List.flatMap_cons]
    rw [h x (List.mem_cons_self x xs),
      ih (fun c hc => h c (List.mem_cons_of_mem x hc))]
    rfl

theorem map_id_of (f : α → α) (l : List α) (h : ∀ c ∈ l, f c = c) :
    l.map f = l := by
  rw [List.map_congr_left h]
  exact List.map_id l

theorem mem_collapseWs :
    ∀ (l : List Char) (b : Bool) (c : Char), c ∈ collapseWs b l →
      c = ' ' ∨ (c ∈ l ∧ isSpaceChar c = false) := by
  intro l
  induction l with
  | nil =>
    intro b c h
    simp [collapseWs] at h
  | cons x xs ih =>
    intro b c h
    simp only [collapseWs] at h
    by_cases hx : isSpaceChar x = true
    · rw [if_pos hx] at h
      split at h
      · rcases ih true c h with h' | ⟨h1, h2⟩
        · exact Or.inl h'
        · exact Or.inr ⟨List.mem_cons_of_mem x h1, h2⟩
      · rcases List.mem_cons.mp h with rfl | h'
        · exact Or.inl rfl
        · rcases ih true c h' with h'' | ⟨h1, h2⟩
          · exact Or.inl h''
          · exact Or.inr ⟨List.mem_cons_of_mem x h1, h2⟩
    · rw [if_neg hx] at h
      rcases List.mem_cons.mp h with rfl | h'
      · exact Or.inr ⟨List.mem_cons_self c xs, Bool.eq_false_iff.mpr hx⟩
      · rcases ih false c h' with h'' | ⟨h1, h2⟩
        · exact Or.inl h''
        · exact Or.inr ⟨List.mem_cons_of_mem x h1, h2⟩

theorem collapseWs_true_head :
    ∀ (l : List Char) (c : Char), (collapseWs true l).head? = some c →
      isSpaceChar c = false := by
  intro l
  induction l with
  | nil =>
    intro c h
    simp [collapseWs] at h
  | cons x xs ih =>
    intro c h
    by_cases hx : isSpaceChar x = true
    · have heq : collapseWs true (x :: xs) = collapseWs true xs := by
        simp [collapseWs, hx]
      rw [heq] at h
      exact ih c h
    · have heq : collapseWs true (x :: xs) = x :: collapseWs false xs := by
        simp [collapseWs, hx]
      rw [heq] at h
      simp only [List.head?_cons] at h
      rcases Option.some.inj h with rfl
      exact Bool.eq_false_iff.mpr hx

theorem chain'_collapseWs :
    ∀ (l : List Char) (b : Bool),
      List.Chain' (fun a c => isSpaceChar a = true → isSpaceChar c = false)
        (collapseWs b l) := by
  intro l
  induction l with
  | nil =>
    intro b
    simp [collapseWs]
  | cons x xs ih =>
    intro b
    simp only [collapseWs]
    by_cases hx : isSpaceChar x = true
    · rw [if_pos hx]
      split
      · exact ih true
      · rw [List.chain'_cons']
        refine ⟨?_, ih true⟩
        intro y hy
        intro _
        exact collapseWs_true_head xs y hy
    · rw [if_neg hx]
      rw [List.chain'_cons']
      refine ⟨?_, ih false⟩
      intro y _ hcx
      exact absurd hcx (Bool.eq_false_iff.mp (Bool.eq_false_iff.mpr hx))

theorem collapseWs_id :
    ∀ (l : List Char) (b : Bool),
      List.Chain' (fun a c => isSpaceChar a = true → isSpaceChar c = false) l →
      (∀ c ∈ l, isSpaceChar c = true → c = ' ') →
      (b = true → ∀ c, l.head? = some c → isSpaceChar c = false) →
      collapseWs b l = l := by
  intro l
  induction l with
  | nil =>
    intro b _ _ _
    rfl
  | cons x xs ih =>
    intro b hchain hsp hhead
    rcases List.chain'_cons'.mp hchain with ⟨hx_next, hchain'⟩
    simp only [collapseWs]
    by_cases hx : isSpaceChar x = true
    · have hb : b = false := by
        cases b
        · rfl
        · exact absurd hx (Bool.eq_false_iff.mp
            (hhead rfl x (by simp)))
      subst hb
      rw [if_pos hx]
      have hx' : x = ' ' := hsp x (List.mem_cons_self x xs) hx
      rw [← hx']
      refine congrArg (x :: ·) (ih true hchain'
        (fun c hc => hsp c (List.mem_cons_of_mem x hc)) ?_)
      intro _ c hc
      exact hx_next c hc hx
    · rw [if_neg hx]
      refine congrArg (x :: ·) (ih false hchain'
        (fun c hc => hsp c (List.mem_cons_of_mem x hc)) ?_)
      intro hc
      exact absurd hc (by simp)

theorem head?_dropWhile_not (p : α → Bool) :
    ∀ (l : List α) (c : α), (l.dropWhile p).head? = some c → p c = false := by
  intro l
  induction l with
  | nil =>
    intro c h
    simp at h
  | cons x xs ih =>
    intro c h
    rw [List.dropWhile_cons] at h
    split at h
    · exact ih c h
    · simp only [List.head?_cons] at h
      rcases Option.some.inj h with rfl
      rename_i hpx
      exact Bool.eq_false_iff.mpr hpx

theorem dropWhile_eq_self_of_head (p : α → Bool) (l : List α)
    (h : ∀ c, l.head? = some c → p c = false) : l.dropWhile p = l := by
  cases l with
  | nil => rfl
  | cons x xs =>
    rw [List.dropWhile_cons, if_neg]
    rw [h x (by simp)]
    simp

theorem head?_of_pfx (l₁ l₂ : List α) (h : l₁ <+: l₂) (c : α)
    (hc : l₁.head? = some c) : l₂.head? = some c := by
  rcases h with ⟨t, rfl⟩
  cases l₁ with
  | nil => simp at hc
  | cons x xs =>
    simp only [List.head?_cons] at hc
    rcases Option.some.inj hc with rfl
    rfl

theorem stripSpaces_pfx (l : List Char) :
    stripSpaces l <+: l.dropWhile isSpaceChar := by
  have h : ((l.dropWhile isSpaceChar).reverse.dropWhile isSpaceChar).reverse
      <+: (l.dropWhile isSpaceChar).reverse.reverse :=
    List.reverse_prefix.mpr (List.dropWhile_suffix isSpaceChar)
  rw [List.reverse_reverse] at h
  exact h

theorem stripSpaces_head (l : List Char) (c : Char)
    (h : (stripSpaces l).head? = some c) : isSpaceChar c = false := by
  have h2 := head?_of_pfx _ _ (stripSpaces_pfx l) c h
  exact head?_dropWhile_not isSpaceChar _ c h2

theorem stripSpaces_last (l : List Char) (c : Char)
    (h : (stripSpaces l).getLast? = some c) : isSpaceChar c = false := by
  rw [stripSpaces, List.getLast?_reverse] at h
  exact head?_dropWhile_not isSpaceChar _ c h

theorem stripSpaces_chain' (l : List Char)
    (R : Char → Char → Prop) (h : List.Chain' R l) :
    List.Chain' R (stripSpaces l) := by
  have hA : List.Chain' R (l.dropWhile isSpaceChar) :=
    List.Chain'.suffix h (List.dropWhile_suffix isSpaceChar)
  have hArev : List.Chain' (flip R) (l.dropWhile isSpaceChar).reverse := by
    rw [List.chain'_reverse]
    exact hA
  have hB : List.Chain' (flip R)
      ((l.dropWhile isSpaceChar).reverse.dropWhile isSpaceChar) :=
    List.Chain'.suffix hArev (List.dropWhile_suffix isSpaceChar)
  rw [stripSpaces, List.chain'_reverse]
  exact hB

theorem stripSpaces_subset (l : List Char) (c : Char)
    (h : c ∈ stripSpaces l) : c ∈ l := by
  rw [stripSpaces, List.mem_reverse] at h
  have h2 := (List.dropWhile_sublist isSpaceChar).mem h
  rw [List.mem_reverse] at h2
  exact (List.dropWhile_sublist isSpaceChar).mem h2

theorem stripSpaces_id (l : List Char)
    (hhead : ∀ c, l.head? = some c → isSpaceChar c = false)
    (hlast : ∀ c, l.getLast? = some c → isSpaceChar c = false) :
    stripSpaces l = l := by
  rw [stripSpaces]
  rw [dropWhile_eq_self_of_head isSpaceChar l hhead]
  rw [dropWhile_eq_self_of_head isSpaceChar l.reverse
    (fun c hc => hlast c (by rwa [List.head?_reverse] at hc))]
  exact List.reverse_reverse l

theorem normalize_text_canon (uni : Char → List Char) (s : String) :
    (∀ c ∈ (normalize_text uni s).data, isKeptChar c = true ∨ c = ' ')
    ∧ List.Chain' (fun a c => isSpaceChar a = true → isSpaceChar c = false)
        (normalize_text uni s).data
    ∧ (∀ c, (normalize_text uni s).data.head? = some c →
        isSpaceChar c = false)
    ∧ (∀ c, (normalize_text uni s).data.getLast? = some c →
        isSpaceChar c = false) := by
  have hdata : (normalize_text uni s).data =
      stripSpaces (collapseWs false
        (((s.data.flatMap uni).map lowerChar).map subChar)) := rfl
  refine ⟨?_, ?_, ?_, ?_⟩
  · intro c hc
    rw [hdata] at hc
    have h1 := stripSpaces_subset _ c hc
    rcases mem_collapseWs _ false c h1 with h | ⟨h2, h3⟩
    · exact Or.inr h
    · rcases List.mem_map.mp h2 with ⟨c', _, rfl⟩
      simp only [subChar] at h3 ⊢
      split at h3
      · rename_i hcond
        cases hk : isKeptChar c' with
        | false =>
          exfalso
          have hs : isSpaceChar c' = true := by
            cases hs' : isSpaceChar c' with
            | false =>
              rw [hk, hs'] at hcond
              exact absurd hcond (by simp)
            | true => rfl
          exact Bool.noConfusion (hs.symm.trans h3)
        | true =>
          rw [if_pos (by simp [hk])]
          exact Or.inl hk
      · exact absurd (space_char_space.symm.trans h3) (by simp)
  · rw [hdata]
    exact stripSpaces_chain' _ _ (chain'_collapseWs _ false)
  · rw [hdata]
    exact fun c => stripSpaces_head _ c
  · rw [hdata]
    exact fun c => stripSpaces_last _ c

theorem normalize_text_fixed (uni : Char → List Char)
    (hU : ∀ c, isKeptChar c = true ∨ c = ' ' → uni c = [c]) (t : String)
    (hmem : ∀ c ∈ t.data, isKeptChar c = true ∨ c = ' ')
    (hchain : List.Chain'
      (fun a c => isSpaceChar a = true → isSpaceChar c = false) t.data)
    (hhead : ∀ c, t.data.head? = some c → isSpaceChar c = false)
    (hlast : ∀ c, t.data.getLast? = some c → isSpaceChar c = false) :
    normalize_text uni t = t := by
  have h1 : t.data.flatMap uni = t.data :=
    flatMap_id_of uni t.data (fun c hc => hU c (hmem c hc))
  have h2 : t.data.map lowerChar = t.data :=
    map_id_of lowerChar t.data (fun c hc => lowerChar_id_out c (hmem c hc))
  have h3 : t.data.map subChar = t.data :=
    map_id_of subChar t.data (fun c hc => subChar_id_out c (hmem c hc))
  have h4 : collapseWs false t.data = t.data :=
    collapseWs_id t.data false hchain
      (fun c hc => space_char_eq c (hmem c hc)) (by simp)
  have h5 : stripSpaces t.data = t.data := stripSpaces_id t.data hhead hlast
  rw [normalize_text, h1, h2, h3, h4, h5]

/-! ## Lemmas: remaining plumbing -/

theorem lookup_of_mem_of_nodup [DecidableEq σ] :
    ∀ (m : List (σ × β)), (keysA m).Nodup → ∀ p ∈ m,
      lookupA p.1 m = some p.2 := by
  intro m
  induction m with
  | nil =>
    intro _ p hp
    simp at hp
  | cons q rest ih =>
    intro hnd p hp
    simp only [keysA, List.map_cons, List.nodup_cons] at hnd
    rcases List.mem_cons.mp hp with rfl | hp'
    · simp [lookupA]
    · have hne : q.1 ≠ p.1 := by
        intro hc
        exact hnd.1 (hc ▸ List.mem_map_of_mem Prod.fst hp')
      simp only [lookupA, if_neg hne]
      exact ih hnd.2 p hp'

theorem query_results (ops : NumOps) (vocab : List (String × VocabEntry))
    (norms : List (String × ℚ)) (store : List Nat)
    (decode : List Nat → Option (List (String × ℚ)))
    (tokens : List String) (k : Nat) (h : tokens.isEmpty = false) :
    (query ops vocab norms store decode tokens k).results =
      sortResults (sortResults ((scoreFold k norms
        (if 0 < (queryAccum ops vocab norms store decode tokens).qSqSum
          then ops.sqrt (queryAccum ops vocab norms store decode tokens).qSqSum
          else 1) []
        (queryAccum ops vocab norms store decode tokens).accum).map
          (fun p => (p.2, p.1)))) := by
  rw [query, if_neg (by simp [h])]

theorem query_bytes (ops : NumOps) (vocab : List (String × VocabEntry))
    (norms : List (String × ℚ)) (store : List Nat)
    (decode : List Nat → Option (List (String × ℚ)))
    (tokens : List String) (k : Nat) (h : tokens.isEmpty = false) :
    (query ops vocab norms store decode tokens k).bytesRead =
      (queryAccum ops vocab norms store decode tokens).bytes := by
  rw [query, if_neg (by simp [h])]

theorem merge_ok_out (ops : NumOps) (files : List (Nat × Block))
    (out : MergeOut) (h : merge_blocks ops files = .ok out) :
    out = mergeOutF ops files := by
  rw [merge_blocks] at h
  split at h
  · exact Except.noConfusion h
  · split at h
    · exact Except.noConfusion h
    · exact (Except.ok.inj h).symm

/-! ## Claims

Core marks the `Rat` arithmetic operations `@[irreducible]`, which
blocks `decide` from evaluating concrete rational arithmetic; the
witnesses and counterexamples below evaluate the model on concrete
inputs, so the operations are made semireducible for the remainder of
this file. -/

attribute [local semireducible] Rat.mul Rat.add Rat.inv Rat.sub

theorem sortResults_length (l : List (String × ℚ)) :
    (sortResults l).length = l.length :=
  (perm_sortBy _ l).length_eq

/-- C1, counterexample: in a process where the custom stopword file is
absent and `stopwords.words("spanish")` raises a non-`LookupError`
exception — so neither stopword source can be loaded — the initializer
does NOT fail: it silently installs the EMPTY stopword set and
`remove_stopwords` proceeds, filtering nothing.  This refutes the claim
that the first stopword-initializing operation always fails fatally in
such a process. -/
theorem claim1_counterexample :
    ensure_nltk_resources envC1 = .ok [] ∧
      remove_stopwords envC1 ["gato", "el"] = .ok ["gato", "el"] :=
  ⟨rfl, rfl⟩

/-- C1, amended: stopword initialization fails fatally when `nltk`
cannot be imported, and when the stopword resource raises `LookupError`
and the post-download retry also fails; but when the first stopword load
fails with any other exception, the initializer silently falls back to
the empty stopword set and returns normally. -/
theorem claim1_amended :
    (∀ env : StopwordEnv,
      env.customExists = false ∨ env.customRead = none →
      env.nltkAvailable = false →
      ∃ msg, ensure_nltk_resources env = .error msg)
    ∧ (∀ env : StopwordEnv,
      env.customExists = false ∨ env.customRead = none →
      env.swFirst = .lookupFailed → env.swRetry = none →
      ∃ msg, ensure_nltk_resources env = .error msg)
    ∧ (∀ env : StopwordEnv,
      env.customExists = false ∨ env.customRead = none →
      env.nltkAvailable = true → env.stemmerOk = true →
      env.swFirst = .otherFailed →
      ensure_nltk_resources env = .ok []) := by
  have hdispatch : ∀ env : StopwordEnv,
      env.customExists = false ∨ env.customRead = none →
      ensure_nltk_resources env = nltkLoad env := by
    intro env hcustom
    rcases hcustom with h | h
    · rw [ensure_nltk_resources, if_neg (by simp [h])]
    · rw [ensure_nltk_resources]
      by_cases hce : env.customExists = true
      · rw [if_pos hce, h]
      · rw [if_neg hce]
  refine ⟨?_, ?_, ?_⟩
  · intro env hcustom hnltk
    rw [hdispatch env hcustom, nltkLoad, if_pos hnltk]
    exact ⟨_, rfl⟩
  · intro env hcustom hsw hretry
    rw [hdispatch env hcustom]
    rw [nltkLoad]
    by_cases hn : env.nltkAvailable = false
    · rw [if_pos hn]
      exact ⟨_, rfl⟩
    · rw [if_neg hn]
      by_cases hs : env.stemmerOk = false
      · rw [if_pos hs]
        exact ⟨_, rfl⟩
      · rw [if_neg hs, hsw, hretry]
        exact ⟨_, rfl⟩
  · intro env hcustom hn hs hsw
    rw [hdispatch env hcustom, nltkLoad, if_neg (by simp [hn]),
      if_neg (by simp [hs]), hsw]

/-- C1, amended, witness: with no custom stopword file and `nltk` not
importable, initialization is a fatal error. -/
theorem claim1_amended_witness :
    ((envNoNltk.customExists = false ∨ envNoNltk.customRead = none) ∧
      envNoNltk.nltkAvailable = false) ∧
      ∃ msg, ensure_nltk_resources envNoNltk = .error msg :=
  ⟨⟨Or.inl rfl, rfl⟩, claim1_amended.1 envNoNltk (Or.inl rfl) rfl⟩

/-- C10: `normalize` is idempotent — its output consists only of
lowercase ASCII letters, digits and single interior spaces with no
leading or trailing whitespace, and a second pass leaves such a string
unchanged.  `uni` is the `unidecode` transliteration; the hypothesis
states the one property of the real `unidecode` that matters, namely
that it is the identity on the output alphabet. -/
theorem claim10_normalize_idempotent (uni : Char → List Char)
    (hU : ∀ c, isKeptChar c = true ∨ c = ' ' → uni c = [c]) (s : String) :
    normalize_text uni (normalize_text uni s) = normalize_text uni s := by
  rcases normalize_text_canon uni s with ⟨hmem, hchain, hhead, hlast⟩
  exact normalize_text_fixed uni hU (normalize_text uni s)
    hmem hchain hhead hlast

/-- C10, witness: idempotence at a concrete string under the identity
transliteration. -/
theorem claim10_witness :
    (∀ c, isKeptChar c = true ∨ c = ' ' → idUni c = [c]) ∧
      normalize_text idUni
        (normalize_text idUni "  Hola,  MUNDO!! 123  ") =
        normalize_text idUni "  Hola,  MUNDO!! 123  " :=
  ⟨fun c _ => rfl,
    claim10_normalize_idempotent idUni (fun c _ => rfl)
      "  Hola,  MUNDO!! 123  "⟩

/-- C8: for every query with a non-empty token sequence, `bytes_read`
equals the exact sum of the dictionary `length` fields of the query's
distinct in-vocabulary terms.  The statement quantifies over every
`decode` function, so it holds in particular when a postings record
fails to parse (the byte count is charged either way), and terms absent
from the dictionary contribute zero bytes without error. -/
theorem claim8_bytes_read (ops : NumOps)
    (vocab : List (String × VocabEntry)) (norms : List (String × ℚ))
    (store : List Nat) (decode : List Nat → Option (List (String × ℚ)))
    (tokens : List String) (k : Nat) (h : tokens ≠ []) :
    (query ops vocab norms store decode tokens k).bytesRead =
      specBytesRead vocab tokens := by
  have he : tokens.isEmpty = false := by
    cases tokens with
    | nil => exact absurd rfl h
    | cons a l => rfl
  rw [query_bytes ops vocab norms store decode tokens k he]
  rw [show queryAccum ops vocab norms store decode tokens =
    (qTermFreqs tokens).foldl (accumStep ops vocab norms store decode)
      ⟨[], 0, 0⟩ from rfl]
  rw [accum_bytes]
  simp only [Nat.zero_add]
  have h2 := keys_qTermFreqs tokens
  simp only [keysA] at h2
  rw [h2]
  rfl

/-- C8, witness: a query with a repeated in-vocabulary term and an
out-of-vocabulary term, under a decoder that fails on every record,
still reports exactly the dictionary length of the single distinct
in-vocabulary term. -/
theorem claim8_witness :
    (["a", "zzz", "a"] : List String) ≠ [] ∧
      (query mOps exOutA.vocab exOutA.doc_norms exOutA.store decodeFail
        ["a", "zzz", "a"] 3).bytesRead =
        specBytesRead exOutA.vocab ["a", "zzz", "a"] :=
  ⟨by decide,
    claim8_bytes_read mOps exOutA.vocab exOutA.doc_norms exOutA.store
      decodeFail ["a", "zzz", "a"] 3 (by decide)⟩

/-- C9: the result list of a query never contains the same document id
twice: dot products are accumulated in a map keyed by document id, the
bounded top-k heap inserts each candidate at most once, and sorting
preserves distinctness.  This holds for every index, decoder, token list
and capacity. -/
theorem claim9_no_duplicate_docs (ops : NumOps)
    (vocab : List (String × VocabEntry)) (norms : List (String × ℚ))
    (store : List Nat) (decode : List Nat → Option (List (String × ℚ)))
    (tokens : List String) (k : Nat) :
    ((query ops vocab norms store decode tokens k).results.map
      Prod.fst).Nodup := by
  cases he : tokens.isEmpty with
  | true =>
    rw [query, if_pos he]
    simp
  | false =>
    rw [query_results ops vocab norms store decode tokens k he]
    set st := queryAccum ops vocab norms store decode tokens with hst
    set qn := if 0 < st.qSqSum then ops.sqrt st.qSqSum else 1 with hqn
    set heap := scoreFold k norms qn [] st.accum with hheap
    have hperm : ((sortResults (sortResults (heap.map
        (fun p => (p.2, p.1))))).map Prod.fst).Perm
        ((heap.map (fun p => (p.2, p.1))).map Prod.fst) :=
      ((perm_sortBy _ _).trans (perm_sortBy _ _)).map Prod.fst
    rw [hperm.nodup_iff]
    have hmap : (heap.map (fun p : ℚ × String => (p.2, p.1))).map Prod.fst =
        heap.map Prod.snd := by
      simp [List.map_map, Function.comp_def]
    rw [hmap]
    refine scoreFold_docs_nodup k norms qn st.accum [] ?_ (by simp) (by simp)
    exact queryAccum_keys_nodup ops vocab norms store decode tokens

/-- C2, counterexample: on the corpus of `exFilesA` the query token "a"
has idf 0 (it occurs in both documents), so every accumulated dot
product is 0 and no candidate has a nonzero cosine score; yet document
"1" (whose norm is nonzero) is pushed into the under-capacity heap and
returned WITH SCORE 0.  The result length is 1 while the claim predicts
`min(5, 0) = 0`, and a zero-score document appears in the results. -/
theorem claim2_counterexample :
    merge_blocks mOps exFilesA = .ok exOutA
    ∧ (query mOps exOutA.vocab exOutA.doc_norms exOutA.store
        (decodeOf exOutA) ["a"] 5).results = [("1", 0)]
    ∧ nonzeroScoreCount mOps exOutA.vocab exOutA.doc_norms exOutA.store
        (decodeOf exOutA) ["a"] = 0
    ∧ (query mOps exOutA.vocab exOutA.doc_norms exOutA.store
        (decodeOf exOutA) ["a"] 5).results.length ≠
      min 5 (nonzeroScoreCount mOps exOutA.vocab exOutA.doc_norms
        exOutA.store (decodeOf exOutA) ["a"]) :=
  ⟨rfl, by decide, by decide, by decide⟩

/-- C2, amended: for every capacity `k ≥ 1` the result list has length
`min(k, number of candidate documents with nonzero stored norm)` — the
candidates being the documents accumulated from matched postings.
Zero-SCORE candidates are NOT filtered out: they enter the heap whenever
it is below capacity, so the claim's bound `min(k, number of candidates
with nonzero score)` does not hold. -/
theorem claim2_amended (ops : NumOps) (vocab : List (String × VocabEntry))
    (norms : List (String × ℚ)) (store : List Nat)
    (decode : List Nat → Option (List (String × ℚ)))
    (tokens : List String) (k : Nat) (hk : 1 ≤ k) :
    (query ops vocab norms store decode tokens k).results.length =
      min k (candidatesNonzeroNorm ops vocab norms store decode
        tokens).length := by
  cases he : tokens.isEmpty with
  | true =>
    have htok : tokens = [] := by
      cases tokens with
      | nil => rfl
      | cons a l => exact absurd he (by simp)
    subst htok
    rw [query]
    simp [candidatesNonzeroNorm, queryAccum, qTermFreqs, foldAdd]
  | false =>
    rw [query_results ops vocab norms store decode tokens k he]
    rw [sortResults_length, sortResults_length, List.length_map]
    rw [scoreFold_length k hk norms _ _ [] (by simp)]
    simp only [candidatesNonzeroNorm, List.length_map, List.length_nil,
      Nat.zero_add]

/-- C2, amended, witness: querying "b" (df 1, positive idf) with
capacity 5 returns exactly the one candidate with nonzero norm. -/
theorem claim2_amended_witness :
    1 ≤ 5 ∧
      (query mOps exOutA.vocab exOutA.doc_norms exOutA.store
        (decodeOf exOutA) ["b"] 5).results.length =
        min 5 (candidatesNonzeroNorm mOps exOutA.vocab exOutA.doc_norms
          exOutA.store (decodeOf exOutA) ["b"]).length :=
  ⟨by decide,
    claim2_amended mOps exOutA.vocab exOutA.doc_norms exOutA.store
      (decodeOf exOutA) ["b"] 5 (by decide)⟩

/-- C3, counterexample: with eleven block files (`block_0.json` ..
`block_10.json`) the merge enumerates them in lexicographic file-name
order, which places `block_10.json` BEFORE `block_2.json`; term "t"'s
postings therefore list the document from block 10 before the document
from block 2, while the claim's ascending numeric block-id order
predicts the opposite. -/
theorem claim3_counterexample :
    merge_blocks mOps exFilesC3 = .ok exOutC3
    ∧ exOutC3.records.map (fun r => (r.term, r.postings.map Prod.fst)) =
        [("t", ["d10", "d2"])]
    ∧ firstOccur (numericDocOccurrences exFilesC3 "t") = ["d2", "d10"]
    ∧ exOutC3.records.map (fun r => r.postings.map Prod.fst) ≠
        [firstOccur (numericDocOccurrences exFilesC3 "t")] :=
  ⟨rfl, by decide, by decide, by decide⟩

/-- C3, amended: the merge enumerates block files in ascending
LEXICOGRAPHIC file-name order (which coincides with numeric block-id
order only while the ids have equally many digits), and every term's
postings list its documents in first-encounter order with respect to
that lexicographic enumeration. -/
theorem claim3_amended (ops : NumOps) (files : List (Nat × Block))
    (out : MergeOut) (h : merge_blocks ops files = .ok out) :
    List.Pairwise (fun a b => strLe a b = true)
      ((sortedBlockFiles files).map (fun f => blockFileName f.1))
    ∧ ∀ r ∈ out.records,
        r.postings.map Prod.fst =
          firstOccur (docOccurrences files r.term) := by
  have hout := merge_ok_out ops files out h
  subst hout
  constructor
  · rw [List.pairwise_map]
    have hp := pairwise_sortBy
      (fun a b : Nat × Block =>
        strLe (blockFileName a.1) (blockFileName b.1))
      (fun a b c hab hbc =>
        strLe_trans (blockFileName a.1) (blockFileName b.1)
          (blockFileName c.1) hab hbc)
      (fun a b => strLe_total (blockFileName a.1) (blockFileName b.1))
      files
    exact hp
  · intro r hr
    have hrr : r ∈ mergeRecords ops files := hr
    rcases (mem_mergeRecords ops files r).mp hrr with ⟨t, htk, rfl⟩
    have h1 : (recordFor ops (allDocIds (blockTriples files)).length t
        (foldAdd [] (selTriples t (blockTriples files)))).postings.map
          Prod.fst =
        keysA (foldAdd [] (selTriples t (blockTriples files))) := by
      simp [recordFor, keysA, List.map_map, Function.comp_def]
    rw [h1, keys_foldAdd]
    simp only [keysA, List.map_nil, List.nil_append]
    rw [selTriples_map_fst]
    rfl

/-- C3, amended, witness: the amended enumeration/order statement at
the concrete single-block corpus. -/
theorem claim3_amended_witness :
    merge_blocks mOps exFilesA = .ok exOutA ∧
      (List.Pairwise (fun a b => strLe a b = true)
        ((sortedBlockFiles exFilesA).map (fun f => blockFileName f.1))
      ∧ ∀ r ∈ exOutA.records,
          r.postings.map Prod.fst =
            firstOccur (docOccurrences exFilesA r.term)) :=
  ⟨rfl, claim3_amended mOps exFilesA exOutA rfl⟩

/-- C4: for every successful merge, the persisted document norm table
has exactly `N` entries, where `N` is the distinct-document count used
for idf at build time; consequently the query-time idf — computed from
the size of the loaded norm table — coincides with the build-time idf
at every document frequency. -/
theorem claim4_norm_count (ops : NumOps) (files : List (Nat × Block))
    (out : MergeOut) (h : merge_blocks ops files = .ok out) :
    out.doc_norms.length = out.N
    ∧ ∀ df, queryIdf ops out.doc_norms df = idfOf ops out.N df := by
  have hout := merge_ok_out ops files out h
  subst hout
  have hlen : (mergeOutF ops files).doc_norms.length =
      (mergeOutF ops files).N := doc_norms_length ops files
  refine ⟨hlen, ?_⟩
  intro df
  simp only [queryIdf, idfOf, hlen]

/-- C4, witness: norm-table size and idf agreement at the concrete
corpus. -/
theorem claim4_witness :
    merge_blocks mOps exFilesA = .ok exOutA ∧
      (exOutA.doc_norms.length = exOutA.N ∧
        ∀ df, queryIdf mOps exOutA.doc_norms df = idfOf mOps exOutA.N df) :=
  ⟨rfl, claim4_norm_count mOps exFilesA exOutA rfl⟩

/-- C5: for every term in the dictionary of a successful merge, seeking
to its byte offset and reading exactly its byte length yields precisely
the serialized record line of that term — a well-formed record whose
`term` field equals the dictionary key and whose `df` field equals the
dictionary entry's `df`; record terms are pairwise distinct, so that
record is unique. -/
theorem claim5_offsets (ops : NumOps) (files : List (Nat × Block))
    (out : MergeOut) (t : String) (e : VocabEntry)
    (h : merge_blocks ops files = .ok out)
    (he : lookupA t out.vocab = some e) :
    (∃ r ∈ out.records, r.term = t ∧ r.df = e.df ∧
      sliceBytes out.store e.offset e.length = lineBytes r)
    ∧ (out.records.map PostingsRecord.term).Nodup := by
  have hout := merge_ok_out ops files out h
  subst hout
  refine ⟨?_, nodup_records_terms ops files⟩
  have he' : lookupA t (writeRecords (mergeRecords ops files) 0).2 =
      some e := he
  rcases writeRecords_slice (mergeRecords ops files) 0 t e he' with
    ⟨_, r, hr, hterm, hdf, hslice⟩
  rw [Nat.sub_zero] at hslice
  exact ⟨r, hr, hterm, hdf, hslice⟩

/-- C5, witness: slicing the store at the dictionary entry of term "a"
yields its record line. -/
theorem claim5_witness :
    (merge_blocks mOps exFilesA = .ok exOutA ∧
      lookupA "a" exOutA.vocab =
        some ((lookupA "a" exOutA.vocab).getD ⟨0, 0, 0⟩)) ∧
      ((∃ r ∈ exOutA.records,
          r.term = "a" ∧
          r.df = ((lookupA "a" exOutA.vocab).getD ⟨0, 0, 0⟩).df ∧
          sliceBytes exOutA.store
            ((lookupA "a" exOutA.vocab).getD ⟨0, 0, 0⟩).offset
            ((lookupA "a" exOutA.vocab).getD ⟨0, 0, 0⟩).length =
            lineBytes r)
        ∧ (exOutA.records.map PostingsRecord.term).Nodup) :=
  ⟨⟨rfl, by decide⟩,
    claim5_offsets mOps exFilesA exOutA "a"
      ((lookupA "a" exOutA.vocab).getD ⟨0, 0, 0⟩) rfl (by decide)⟩

/-- C6: merging a fixed set of blocks is deterministic — two successful
runs produce byte-identical postings stores — and the term records of
the store appear in strictly ascending lexicographic term order. -/
theorem claim6_determinism (ops : NumOps) (files : List (Nat × Block))
    (out₁ out₂ : MergeOut) (h₁ : merge_blocks ops files = .ok out₁)
    (h₂ : merge_blocks ops files = .ok out₂) :
    out₁.store = out₂.store ∧
      List.Pairwise (fun a b => strLt a b = true)
        (out₁.records.map PostingsRecord.term) := by
  have e1 := merge_ok_out ops files out₁ h₁
  have e2 := merge_ok_out ops files out₂ h₂
  subst e1
  subst e2
  exact ⟨rfl, pairwise_strLt_records ops files⟩

/-- C6, witness: determinism and strict term order at the concrete
corpus. -/
theorem claim6_witness :
    merge_blocks mOps exFilesA = .ok exOutA ∧
      (exOutA.store = exOutA.store ∧
        List.Pairwise (fun a b => strLt a b = true)
          (exOutA.records.map PostingsRecord.term)) :=
  ⟨rfl, claim6_determinism mOps exFilesA exOutA exOutA rfl rfl⟩

/-- C7: in every successful merge over blocks whose term frequencies
are all ≥ 1, each record's df — in both the dictionary entry and the
record itself — equals the number of distinct document ids in its
postings list (the posting doc ids are pairwise distinct), and every
posting's weight equals `(1 + log10 tf) * log10 (N / df)` where `tf` is
the cumulative term frequency of that (term, document) pair over all
blocks. -/
theorem claim7_df_weights (ops : NumOps) (files : List (Nat × Block))
    (out : MergeOut) (h : merge_blocks ops files = .ok out)
    (htf : ∀ f ∈ files, ∀ tp ∈ f.2, ∀ p ∈ tp.2, 1 ≤ p.2) :
    ∀ r ∈ out.records,
      ((lookupA r.term out.vocab).map VocabEntry.df = some r.df)
      ∧ (r.postings.map Prod.fst).Nodup
      ∧ r.df = (firstOccur (r.postings.map Prod.fst)).length
      ∧ ∀ p ∈ r.postings,
          p.2 = (1 + ops.log10 ((cumTf files r.term p.1 : ℚ))) *
            ops.log10 ((out.N : ℚ) / (r.df : ℚ)) := by
  have hout := merge_ok_out ops files out h
  subst hout
  intro r hr
  have hrr : r ∈ mergeRecords ops files := hr
  have hvocab : (lookupA r.term (mergeOutF ops files).vocab).map
      VocabEntry.df = some r.df := by
    rcases writeRecords_lookup (mergeRecords ops files) 0
      (nodup_records_terms ops files) r hrr with ⟨e, helook, hedf⟩
    have h2 : lookupA r.term (mergeOutF ops files).vocab = some e := helook
    rw [h2]
    simp [hedf]
  rcases (mem_mergeRecords ops files r).mp hrr with ⟨t, htk, hreq⟩
  have hkeys_nodup :
      (keysA (foldAdd [] (selTriples t (blockTriples files)))).Nodup :=
    nodup_keys_foldAdd _ [] (by simp [keysA])
  have hpost_fst : (recordFor ops (allDocIds (blockTriples files)).length t
      (foldAdd [] (selTriples t (blockTriples files)))).postings.map
        Prod.fst =
      keysA (foldAdd [] (selTriples t (blockTriples files))) := by
    simp [recordFor, keysA, List.map_map, Function.comp_def]
  subst hreq
  refine ⟨hvocab, ?_, ?_, ?_⟩
  · rw [hpost_fst]
    exact hkeys_nodup
  · rw [hpost_fst, firstOccur_eq_self _ hkeys_nodup]
    simp [recordFor, keysA]
  · intro p hp
    simp only [recordFor, List.mem_map] at hp
    rcases hp with ⟨q, hq, rfl⟩
    have hlook : lookupA q.1 (foldAdd []
        (selTriples t (blockTriples files))) = some q.2 :=
      lookup_of_mem_of_nodup _ hkeys_nodup q hq
    have hq1 : q.1 ∈ keysA (foldAdd [] (selTriples t (blockTriples files))) :=
      List.mem_map_of_mem Prod.fst hq
    have hcum : q.2 = cumTf files t q.1 := by
      have h2 := docs_lookup_value files t q.1 hq1
      rw [hlook] at h2
      exact Option.some.inj h2
    have hpos : 1 ≤ cumTf files t q.1 :=
      cumTf_pos files t q.1 htf ((mem_docs_iff files t q.1).mp hq1)
    have hdfpos :
        0 < (foldAdd [] (selTriples t (blockTriples files))).length :=
      List.length_pos.mpr (List.ne_nil_of_mem hq)
    show tfWeight ops q.2 *
        idfOf ops (allDocIds (blockTriples files)).length
          (foldAdd [] (selTriples t (blockTriples files))).length = _
    rw [tfWeight, idfOf, if_pos (show 0 < q.2 by rw [hcum]; omega),
      if_pos hdfpos, hcum]
    rfl

/-- C7, witness: df and weight structure at the concrete corpus. -/
theorem claim7_witness :
    (merge_blocks mOps exFilesA = .ok exOutA ∧
      (∀ f ∈ exFilesA, ∀ tp ∈ f.2, ∀ p ∈ tp.2, 1 ≤ p.2)) ∧
      ∀ r ∈ exOutA.records,
        ((lookupA r.term exOutA.vocab).map VocabEntry.df = some r.df)
        ∧ (r.postings.map Prod.fst).Nodup
        ∧ r.df = (firstOccur (r.postings.map Prod.fst)).length
        ∧ ∀ p ∈ r.postings,
            p.2 = (1 + mOps.log10 ((cumTf exFilesA r.term p.1 : ℚ))) *
              mOps.log10 ((exOutA.N : ℚ) / (r.df : ℚ)) :=
  ⟨⟨rfl, by decide⟩,
    claim7_df_weights mOps exFilesA exOutA rfl (by decide)⟩

end Spimi
